import Mathlib

/-!
# lab23: odd-element reduction, sequentially, under a mutex, and lock-free

A shallow embedding of `src/main.cpp`.

* A C++ `int` is a Lean `Int`; every `int` operation that can leave the 32-bit
  range is followed by `wrapInt` (two's-complement wrap-around, which is also how
  C++20 narrows `arr.size()` to `int`).
* `getSequential` is a left fold over the array.
* `getBlocking` and `getNonBlocking` start several threads.  Each is embedded as a
  state machine: a state holds the shared accumulators and one record per worker
  thread (its program counter and locals); a *schedule* is the list of scheduling
  decisions (which thread moves next, and whether a weak compare-and-swap is
  allowed to succeed).  The function value is the accumulator pair read after all
  workers have been joined, if the schedule lets every worker finish.
* The wall-clock measurements (`Timer`, `waitTime`) do not influence the
  accumulators and are left out.
-/

namespace Lab23

/-! ## Machine integers -/

/-- The value `numeric_limits<int>::max()`. -/
def INT_MAX : Int := 2147483647

/-- The value `numeric_limits<int>::min()`. -/
def INT_MIN : Int := -2147483648

/-- Two's-complement reduction of a mathematical integer to a 32-bit `int`. -/
def wrapInt (x : Int) : Int := (x + 2147483648) % 4294967296 - 2147483648

/-- The integer is representable as a 32-bit `int`. -/
def IsInt (x : Int) : Prop := INT_MIN ≤ x ∧ x ≤ INT_MAX

instance instDecidableIsInt (x : Int) : Decidable (IsInt x) := by
  unfold IsInt; infer_instance

/-- The test `val % 2 != 0`; the C++ remainder truncates towards zero. -/
def isOddVal (val : Int) : Bool := Int.tmod val 2 != 0

/-- The odd elements of a list, in order. -/
def odds (l : List Int) : List Int := l.filter isOddVal

/-- Mathematical (unbounded) sum of the odd elements of a list. -/
def oddSum (l : List Int) : Int := (odds l).sum

/-! ## Sequential reducer -/

/-- Body of the loop of `getSequential`, acting on `(diffOdd, minOdd)`. -/
def seqUpdate (acc : Int × Int) (val : Int) : Int × Int :=
  if Int.tmod val 2 != 0 then (wrapInt (acc.1 - val), min acc.2 val) else acc

/-- The function `getSequential`: returns `(diffOdd, minOdd)`. -/
def getSequential (arr : List Int) : Int × Int :=
  arr.foldl seqUpdate (0, INT_MAX)

/-- The update `sum -= v; min = min(min, v)` applied to an element already known
to be odd. -/
def applyOdd (acc : Int × Int) (v : Int) : Int × Int :=
  (wrapInt (acc.1 - v), min acc.2 v)

/-! ## Work partition

Both parallel reducers compute, with `int` variables,
`chunkSize = arr.size() / threadCount`, `start = i * chunkSize` and
`end = (i == threadCount - 1) ? arr.size() : start + chunkSize`.
The source fixes `threadCount = 4`; it is a parameter here. -/

/-- The constant `threadCount` of the source. -/
def threadCount : Nat := 4

/-- The variable `chunkSize`: the unsigned quotient narrowed to `int`.  (For
`W = 0` the source divides by zero; all results below assume `W >= 1`.) -/
def chunkSize (size W : Nat) : Int := wrapInt ((size / W : Nat) : Int)

/-- The variable `start` of loop iteration `i`. -/
def workerStart (size W i : Nat) : Int := wrapInt ((i : Int) * chunkSize size W)

/-- The variable `end` of loop iteration `i`. -/
def workerEnd (size W i : Nat) : Int :=
  if i + 1 = W then wrapInt (size : Int)
  else wrapInt (workerStart size W i + chunkSize size W)

/-- The index `k` is visited by the loop `for (i = start; i < end; ++i)` of
worker `i`. -/
def inRange (size W i : Nat) (k : Int) : Prop :=
  workerStart size W i ≤ k ∧ k < workerEnd size W i

instance instDecidableInRange (size W i : Nat) (k : Int) :
    Decidable (inRange size W i k) := by
  unfold inRange; infer_instance

/-- The element `arr[i]` for an `int` index; `none` when the access is out of
bounds (undefined behaviour in the source). -/
def readAt (arr : List Int) (i : Int) : Option Int :=
  if 0 ≤ i then arr[i.toNat]? else none

/-! ## Lock-free reducer (`getNonBlocking`) -/

/-- Program points of a `getNonBlocking` worker. -/
inductive NBpc where
  /-- at the test `i < end` of the `for` loop -/
  | loopHead
  /-- before `oldVal = diffOdd.load()` -/
  | sumLoad
  /-- before `diffOdd.compare_exchange_weak(oldVal, newVal)` -/
  | sumCas
  /-- before `oldVal = minOdd.load()` -/
  | minLoad
  /-- before `minOdd.compare_exchange_weak(oldVal, newVal)` -/
  | minCas
  /-- the lambda has returned -/
  | finished
  /-- an out-of-bounds read happened -/
  | faulted
  deriving DecidableEq, Repr

/-- Locals of a `getNonBlocking` worker. `stop` is the parameter `end`. -/
structure NBWorker where
  start : Int
  stop : Int
  i : Int
  val : Int
  oldVal : Int
  newVal : Int
  pc : NBpc
  deriving DecidableEq, Repr

/-- Shared atomics of `getNonBlocking` together with its worker threads. -/
structure NBState where
  diffOdd : Int
  minOdd : Int
  workers : List NBWorker
  deriving DecidableEq, Repr

/-- One atomic action of a worker, given the current shared values `d`
(`diffOdd`) and `m` (`minOdd`).  A weak compare-and-swap succeeds only when the
shared value equals the expected one and the scheduler allows it (`ok`); it may
fail spuriously.  In the loop `i < end` holds before `++i`, so `i + 1` cannot
overflow. -/
def nbWorkerStep (arr : List Int) (ok : Bool) (d m : Int) (w : NBWorker) :
    Int × Int × NBWorker :=
  match w.pc with
  | .loopHead =>
    if w.i < w.stop then
      match readAt arr w.i with
      | none => (d, m, { w with pc := .faulted })
      | some v =>
        if Int.tmod v 2 != 0 then (d, m, { w with val := v, pc := .sumLoad })
        else (d, m, { w with val := v, i := w.i + 1 })
    else (d, m, { w with pc := .finished })
  | .sumLoad =>
    (d, m, { w with oldVal := d, newVal := wrapInt (d - w.val), pc := .sumCas })
  | .sumCas =>
    if ok && d == w.oldVal then (w.newVal, m, { w with pc := .minLoad })
    else (d, m, { w with oldVal := d, pc := .sumLoad })
  | .minLoad =>
    if w.val < m then
      (d, m, { w with oldVal := m, newVal := min m w.val, pc := .minCas })
    else
      (d, m, { w with oldVal := m, newVal := min m w.val, i := w.i + 1, pc := .loopHead })
  | .minCas =>
    if ok && m == w.oldVal then (d, w.newVal, { w with i := w.i + 1, pc := .loopHead })
    else (d, m, { w with oldVal := m, pc := .minLoad })
  | .finished => (d, m, w)
  | .faulted => (d, m, w)

/-- Thread `t` performs one atomic action. -/
def nbStep (arr : List Int) (s : NBState) (c : Nat × Bool) : NBState :=
  match s.workers[c.1]? with
  | none => s
  | some w =>
    let r := nbWorkerStep arr c.2 s.diffOdd s.minOdd w
    { diffOdd := r.1, minOdd := r.2.1, workers := s.workers.set c.1 r.2.2 }

/-- Run a schedule. -/
def nbRun (arr : List Int) (s : NBState) (sched : List (Nat × Bool)) : NBState :=
  sched.foldl (nbStep arr) s

/-- Worker `t` as created by `threads.emplace_back(worker, start, end)`. -/
def nbWorkerInit (size W t : Nat) : NBWorker :=
  { start := workerStart size W t, stop := workerEnd size W t,
    i := workerStart size W t, val := 0, oldVal := 0, newVal := 0, pc := .loopHead }

/-- State of `getNonBlocking` once the `W` threads exist. -/
def nbInit (W : Nat) (arr : List Int) : NBState :=
  { diffOdd := 0, minOdd := INT_MAX,
    workers := (List.range W).map (nbWorkerInit arr.length W) }

/-- Every worker has returned, so every `join` returns. -/
def nbJoined (s : NBState) : Bool := s.workers.all (fun w => w.pc == .finished)

/-- The reducer `getNonBlocking` with `W` worker threads under a given
schedule: the pair `(diffOdd.load(), minOdd.load())` if all workers were joined. -/
def getNonBlockingW (W : Nat) (arr : List Int) (sched : List (Nat × Bool)) :
    Option (Int × Int) :=
  let s := nbRun arr (nbInit W arr) sched
  if nbJoined s then some (s.diffOdd, s.minOdd) else none

/-- The function `getNonBlocking` (four workers) under a given schedule. -/
def getNonBlocking (arr : List Int) (sched : List (Nat × Bool)) : Option (Int × Int) :=
  getNonBlockingW threadCount arr sched

/-! ## Mutex-protected reducer (`getBlocking`) -/

/-- Program points of a `getBlocking` worker.  The compound assignments on the
plain `int` accumulators are split into their read and their write. -/
inductive Bpc where
  /-- at the test `i < end` of the `for` loop -/
  | loopHead
  /-- before `m.lock()` -/
  | lock
  /-- before the read of `diffOdd` in `diffOdd -= arr[i]` -/
  | sumRead
  /-- before the write of `diffOdd` -/
  | sumWrite
  /-- before the read of `minOdd` in `minOdd = min(minOdd, arr[i])` -/
  | minRead
  /-- before the write of `minOdd` -/
  | minWrite
  /-- before `m.unlock()` -/
  | unlock
  /-- the lambda has returned -/
  | finished
  /-- an out-of-bounds read happened -/
  | faulted
  deriving DecidableEq, Repr

/-- Locals of a `getBlocking` worker.  The array is read-only, so the reads of
`arr[i]` within one iteration give one value, kept in `val`; `tmp` holds the
value read from an accumulator. -/
structure BWorker where
  start : Int
  stop : Int
  i : Int
  val : Int
  tmp : Int
  pc : Bpc
  deriving DecidableEq, Repr

/-- Shared variables of `getBlocking`: the accumulators, the owner of mutex `m`
(if locked) and the worker threads. -/
structure BState where
  diffOdd : Int
  minOdd : Int
  owner : Option Nat
  workers : List BWorker
  deriving DecidableEq, Repr

/-- One action of worker `t`.  A worker at `m.lock()` moves only if the mutex is
free. -/
def bWorkerStep (arr : List Int) (t : Nat) (d m : Int) (o : Option Nat) (w : BWorker) :
    Int × Int × Option Nat × BWorker :=
  match w.pc with
  | .loopHead =>
    if w.i < w.stop then
      match readAt arr w.i with
      | none => (d, m, o, { w with pc := .faulted })
      | some v =>
        if Int.tmod v 2 != 0 then (d, m, o, { w with val := v, pc := .lock })
        else (d, m, o, { w with val := v, i := w.i + 1 })
    else (d, m, o, { w with pc := .finished })
  | .lock =>
    match o with
    | none => (d, m, some t, { w with pc := .sumRead })
    | some _ => (d, m, o, w)
  | .sumRead => (d, m, o, { w with tmp := d, pc := .sumWrite })
  | .sumWrite => (wrapInt (w.tmp - w.val), m, o, { w with pc := .minRead })
  | .minRead => (d, m, o, { w with tmp := m, pc := .minWrite })
  | .minWrite => (d, min w.tmp w.val, o, { w with pc := .unlock })
  | .unlock => (d, m, none, { w with i := w.i + 1, pc := .loopHead })
  | .finished => (d, m, o, w)
  | .faulted => (d, m, o, w)

/-- Thread `t` performs one action. -/
def bStep (arr : List Int) (s : BState) (t : Nat) : BState :=
  match s.workers[t]? with
  | none => s
  | some w =>
    let r := bWorkerStep arr t s.diffOdd s.minOdd s.owner w
    { diffOdd := r.1, minOdd := r.2.1, owner := r.2.2.1, workers := s.workers.set t r.2.2.2 }

/-- Run a schedule. -/
def bRun (arr : List Int) (s : BState) (sched : List Nat) : BState :=
  sched.foldl (bStep arr) s

/-- Worker `t` as created by `threads.emplace_back(worker, start, end)`. -/
def bWorkerInit (size W t : Nat) : BWorker :=
  { start := workerStart size W t, stop := workerEnd size W t,
    i := workerStart size W t, val := 0, tmp := 0, pc := .loopHead }

/-- State of `getBlocking` once the `W` threads exist. -/
def bInit (W : Nat) (arr : List Int) : BState :=
  { diffOdd := 0, minOdd := INT_MAX, owner := none,
    workers := (List.range W).map (bWorkerInit arr.length W) }

/-- Every worker has returned, so every `join` returns. -/
def bJoined (s : BState) : Bool := s.workers.all (fun w => w.pc == .finished)

/-- The reducer `getBlocking` with `W` worker threads under a given schedule:
the pair `(diffOdd, minOdd)` if all workers were joined. -/
def getBlockingW (W : Nat) (arr : List Int) (sched : List Nat) : Option (Int × Int) :=
  let s := bRun arr (bInit W arr) sched
  if bJoined s then some (s.diffOdd, s.minOdd) else none

/-- The function `getBlocking` (four workers) under a given schedule. -/
def getBlocking (arr : List Int) (sched : List Nat) : Option (Int × Int) :=
  getBlockingW threadCount arr sched

/-! ## Schedules that run the workers one after the other -/

/-- Thread `t` moves `k` times in a row, every compare-and-swap allowed. -/
def nbSolo (t k : Nat) : List (Nat × Bool) := List.replicate k (t, true)

/-- Threads `0 .. W-1` one after the other, each for `k` moves. -/
def nbSerial (W k : Nat) : List (Nat × Bool) :=
  (List.range W).flatMap (fun t => nbSolo t k)

/-- Threads `0 .. W-1` one after the other, each for `k` moves. -/
def bSerial (W k : Nat) : List Nat :=
  (List.range W).flatMap (fun t => List.replicate k t)

/-! ## Proof devices: the progress of a worker through its range -/

/-- The elements `arr[a], ..., arr[b-1]`. -/
def seg (arr : List Int) (a b : Int) : List Int := (arr.take b.toNat).drop a.toNat

/-- Where a worker stands with respect to the element `arr[i]`. -/
inductive Stage where
  /-- at the loop head: `arr[i]` not yet looked at -/
  | idle
  /-- `arr[i]` is odd; neither accumulator has received it -/
  | pendingSum
  /-- the sum has received `arr[i]`, the minimum not yet -/
  | pendingMin
  /-- both accumulators have received `arr[i]`, `i` not yet incremented -/
  | applied
  /-- the worker has returned -/
  | finished
  /-- the worker read out of bounds -/
  | faulted
  deriving DecidableEq, Repr

/-- The part of a worker that matters for the accumulators. -/
structure Progress where
  start : Int
  stop : Int
  i : Int
  val : Int
  stage : Stage
  deriving DecidableEq, Repr

/-- Sum of the odd elements this worker has already subtracted from the sum. -/
def Progress.sumDone (arr : List Int) (p : Progress) : Int :=
  oddSum (seg arr p.start p.i) +
    (if p.stage = .pendingMin ∨ p.stage = .applied then p.val else 0)

/-- Number of odd elements this worker has already subtracted from the sum. -/
def Progress.cntDone (arr : List Int) (p : Progress) : Nat :=
  (odds (seg arr p.start p.i)).length +
    (if p.stage = .pendingMin ∨ p.stage = .applied then 1 else 0)

/-- The odd elements this worker has already merged into the minimum. -/
def Progress.minDone (arr : List Int) (p : Progress) : List Int :=
  odds (seg arr p.start p.i) ++ (if p.stage = .applied then [p.val] else [])

/-- The odd elements this worker may already have merged into the minimum. -/
def Progress.minSeen (arr : List Int) (p : Progress) : List Int :=
  odds (seg arr p.start p.i) ++
    (if p.stage = .pendingMin ∨ p.stage = .applied then [p.val] else [])

/-- Well-formedness of a worker: it is inside its range, and while it works on
an element, that element is `arr[i]` and is odd. -/
structure WorkerOK (arr : List Int) (p : Progress) : Prop where
  start_le : p.start ≤ p.i
  range : p.i = p.start ∨ (0 ≤ p.start ∧ p.i ≤ p.stop)
  mid : (p.stage = .pendingSum ∨ p.stage = .pendingMin ∨ p.stage = .applied) →
    0 ≤ p.start ∧ p.i < p.stop ∧ readAt arr p.i = some p.val ∧ isOddVal p.val = true
  fin : p.stage = .finished → p.stop ≤ p.i

/-- The accumulator invariant: the shared sum is the wrapped negated sum of the
elements already subtracted, and the shared minimum is a lower bound of the
elements already merged that is either the sentinel or one of the elements a
worker has reached. -/
structure AInv (arr : List Int) (d m : Int) (ps : List Progress) : Prop where
  ok : ∀ p ∈ ps, WorkerOK arr p
  sum : d = wrapInt (-((ps.map (Progress.sumDone arr)).sum))
  lb : ∀ p ∈ ps, ∀ v ∈ p.minDone arr, m ≤ v
  le : m ≤ INT_MAX
  mem : m = INT_MAX ∨ ∃ p ∈ ps, m ∈ p.minSeen arr

/-- The effect of one worker action on the accumulators `(d, m)` and on the
progress of that worker. -/
inductive Move (arr : List Int) : Int → Int → Progress → Int → Int → Progress → Prop where
  | stutter (d m : Int) (p : Progress) : Move arr d m p d m p
  | skip (d m : Int) (p : Progress) (v : Int) :
      p.stage = .idle → p.i < p.stop → readAt arr p.i = some v → isOddVal v = false →
      Move arr d m p d m { p with i := p.i + 1, val := v }
  | fetch (d m : Int) (p : Progress) (v : Int) :
      p.stage = .idle → p.i < p.stop → readAt arr p.i = some v → isOddVal v = true →
      Move arr d m p d m { p with val := v, stage := .pendingSum }
  | fault (d m : Int) (p : Progress) :
      p.stage = .idle → Move arr d m p d m { p with stage := .faulted }
  | finish (d m : Int) (p : Progress) :
      p.stage = .idle → ¬ p.i < p.stop → Move arr d m p d m { p with stage := .finished }
  | applySum (d m : Int) (p : Progress) :
      p.stage = .pendingSum →
      Move arr d m p (wrapInt (d - p.val)) m { p with stage := .pendingMin }
  | applyMin (d m : Int) (p : Progress) :
      p.stage = .pendingMin →
      Move arr d m p d (min m p.val) { p with stage := .applied }
  | next (d m : Int) (p : Progress) :
      p.stage = .applied → Move arr d m p d m { p with i := p.i + 1, stage := .idle }
  | applyMinNext (d m : Int) (p : Progress) :
      p.stage = .pendingMin →
      Move arr d m p d (min m p.val) { p with i := p.i + 1, stage := .idle }

/-- Stage of a `getNonBlocking` worker. -/
def nbStage : NBpc → Stage
  | .loopHead => .idle
  | .sumLoad => .pendingSum
  | .sumCas => .pendingSum
  | .minLoad => .pendingMin
  | .minCas => .pendingMin
  | .finished => .finished
  | .faulted => .faulted

/-- Progress of a `getNonBlocking` worker. -/
def nbView (w : NBWorker) : Progress :=
  { start := w.start, stop := w.stop, i := w.i, val := w.val, stage := nbStage w.pc }

/-- Stage of a `getBlocking` worker. -/
def bStage : Bpc → Stage
  | .loopHead => .idle
  | .lock => .pendingSum
  | .sumRead => .pendingSum
  | .sumWrite => .pendingSum
  | .minRead => .pendingMin
  | .minWrite => .pendingMin
  | .unlock => .applied
  | .finished => .finished
  | .faulted => .faulted

/-- Progress of a `getBlocking` worker. -/
def bView (w : BWorker) : Progress :=
  { start := w.start, stop := w.stop, i := w.i, val := w.val, stage := bStage w.pc }

/-- What a `getNonBlocking` worker knows about its locals at a compare-and-swap. -/
def NBLocal (w : NBWorker) : Prop :=
  (w.pc = .sumCas → w.newVal = wrapInt (w.oldVal - w.val)) ∧
  (w.pc = .minCas → w.val < w.oldVal ∧ w.newVal = min w.oldVal w.val)

/-- The worker is between `m.lock()` and `m.unlock()`. -/
def Bpc.inCS : Bpc → Bool
  | .sumRead => true
  | .sumWrite => true
  | .minRead => true
  | .minWrite => true
  | .unlock => true
  | _ => false

/-- Mutual exclusion in `getBlocking`: exactly the owner of the mutex is inside
the critical section, and what it has read from an accumulator is still the
value of that accumulator. -/
def BLocal (s : BState) : Prop :=
  ∀ t w, s.workers[t]? = some w →
    (w.pc.inCS = true ↔ s.owner = some t) ∧
    (w.pc = .sumWrite → w.tmp = s.diffOdd) ∧
    (w.pc = .minWrite → w.tmp = s.minOdd)

/-- Invariant of the `getNonBlocking` machine. -/
def NBInv (arr : List Int) (s : NBState) : Prop :=
  AInv arr s.diffOdd s.minOdd (s.workers.map nbView) ∧ ∀ w ∈ s.workers, NBLocal w

/-- Invariant of the `getBlocking` machine. -/
def BInv (arr : List Int) (s : BState) : Prop :=
  AInv arr s.diffOdd s.minOdd (s.workers.map bView) ∧ BLocal s

/-- The elements the workers visit, worker after worker: worker `t` visits
`arr[start], ..., arr[end-1]`, nothing if `end <= start`. -/
def processed (W : Nat) (arr : List Int) : List Int :=
  ((List.range W).map (fun t => seg arr (workerStart arr.length W t)
    (max (workerStart arr.length W t) (workerEnd arr.length W t)))).flatten

/-- The workers are the `W` workers of the partition of an array of length
`size`: worker `t` has the bounds computed for loop iteration `t`. -/
def Shape (size W : Nat) (ps : List Progress) : Prop :=
  ps.map (fun p => (p.start, p.stop)) =
    (List.range W).map (fun t => (workerStart size W t, workerEnd size W t))

/-! ## Proof devices: termination of the serial schedules -/

/-- Distance of a program point of `getNonBlocking` from the next loop head. -/
def nbRank : NBpc → Nat
  | .loopHead => 5
  | .sumLoad => 4
  | .sumCas => 3
  | .minLoad => 2
  | .minCas => 1
  | .finished => 0
  | .faulted => 0

/-- Upper bound on the number of moves a `getNonBlocking` worker still makes
when it runs alone. -/
def nbPot (w : NBWorker) : Nat :=
  match w.pc with
  | .finished => 0
  | .faulted => 0
  | _ => 5 * (w.stop - w.i).toNat + nbRank w.pc

/-- A `getNonBlocking` worker that runs alone: its expected values are current
and its remaining reads are in bounds. -/
def NBSolo (arr : List Int) (d m : Int) (w : NBWorker) : Prop :=
  (w.pc = .sumCas → w.oldVal = d) ∧ (w.pc = .minCas → w.oldVal = m) ∧
    w.pc ≠ .faulted ∧ 0 ≤ w.i ∧ w.stop ≤ arr.length ∧
    (w.pc ≠ .loopHead → w.pc ≠ .finished → w.i < w.stop)

/-- Distance of a program point of `getBlocking` from the next loop head. -/
def bRank : Bpc → Nat
  | .loopHead => 7
  | .lock => 6
  | .sumRead => 5
  | .sumWrite => 4
  | .minRead => 3
  | .minWrite => 2
  | .unlock => 1
  | .finished => 0
  | .faulted => 0

/-- Upper bound on the number of moves a `getBlocking` worker still makes when
it runs alone. -/
def bPot (w : BWorker) : Nat :=
  match w.pc with
  | .finished => 0
  | .faulted => 0
  | _ => 7 * (w.stop - w.i).toNat + bRank w.pc

/-- A `getBlocking` worker that runs alone: the mutex is free unless the worker
holds it, and its remaining reads are in bounds. -/
def BSolo (arr : List Int) (o : Option Nat) (w : BWorker) : Prop :=
  (w.pc.inCS = false → o = none) ∧ w.pc ≠ .faulted ∧ 0 ≤ w.i ∧ w.stop ≤ arr.length ∧
    (w.pc ≠ .loopHead → w.pc ≠ .finished → w.i < w.stop)

/-! ## Bookkeeping of the lock-free sum updates -/

/-- The odd elements of its range for which this `getNonBlocking` worker has
completed the sum update (its compare-and-swap on `diffOdd` has succeeded). -/
def nbSumCompleted (arr : List Int) (w : NBWorker) : List Int :=
  odds (seg arr w.start w.i) ++
    (if w.pc = .minLoad ∨ w.pc = .minCas then [w.val] else [])

/-- The odd elements of its range that this `getBlocking` worker has already
subtracted from `diffOdd`. -/
def bSumCompleted (arr : List Int) (w : BWorker) : List Int :=
  odds (seg arr w.start w.i) ++
    (if w.pc = .minRead ∨ w.pc = .minWrite ∨ w.pc = .unlock then [w.val] else [])

/-- The scheduled move is a successful compare-and-swap on `diffOdd`. -/
def nbSumCasOk (s : NBState) (c : Nat × Bool) : Bool :=
  match s.workers[c.1]? with
  | none => false
  | some w => w.pc == .sumCas && (c.2 && s.diffOdd == w.oldVal)

/-- Number of successful compare-and-swaps on `diffOdd` along a schedule. -/
def nbSumCasCount (arr : List Int) (s : NBState) : List (Nat × Bool) → Nat
  | [] => 0
  | c :: cs => (if nbSumCasOk s c then 1 else 0) + nbSumCasCount arr (nbStep arr s c) cs

/-! ## Arrays longer than `INT_MAX` -/

/-- An array of `2^31` elements: zeros, except for a final `1`. -/
def bigArray : List Int := List.replicate 2147483647 0 ++ [1]

/-- An array of `2863311532` zeros. -/
def bigEvenArray : List Int := List.replicate 2863311532 0

/-! ## Machine integers: basic facts -/

theorem wrapInt_of_isInt {x : Int} (h : IsInt x) : wrapInt x = x := by
  unfold IsInt INT_MIN INT_MAX at h
  unfold wrapInt
  omega

theorem wrapInt_isInt (x : Int) : IsInt (wrapInt x) := by
  unfold IsInt INT_MIN INT_MAX wrapInt
  omega

theorem wrapInt_wrapInt_sub (a b : Int) : wrapInt (wrapInt a - b) = wrapInt (a - b) := by
  unfold wrapInt
  omega

theorem wrapInt_neg_add (a b : Int) : wrapInt (wrapInt (-a) - b) = wrapInt (-(a + b)) := by
  unfold wrapInt
  omega

theorem isOddVal_iff_tmod (v : Int) : isOddVal v = true ↔ Int.tmod v 2 ≠ 0 := by
  simp [isOddVal]

theorem tmod_two_eq_zero_iff (v : Int) : Int.tmod v 2 = 0 ↔ v % 2 = 0 := by
  rw [← Int.dvd_iff_tmod_eq_zero]
  omega

theorem isOddVal_iff (v : Int) : isOddVal v = true ↔ v % 2 = 1 := by
  rw [isOddVal_iff_tmod, Ne, tmod_two_eq_zero_iff]
  omega

theorem isOddVal_false_iff (v : Int) : isOddVal v = false ↔ v % 2 = 0 := by
  rw [← Bool.not_eq_true, isOddVal_iff]
  omega

theorem mem_odds {l : List Int} {v : Int} : v ∈ odds l ↔ v ∈ l ∧ isOddVal v = true := by
  simp [odds]

theorem odds_append (l₁ l₂ : List Int) : odds (l₁ ++ l₂) = odds l₁ ++ odds l₂ := by
  simp [odds]

theorem oddSum_append (l₁ l₂ : List Int) : oddSum (l₁ ++ l₂) = oddSum l₁ + oddSum l₂ := by
  simp [oddSum, odds_append]

theorem oddSum_nil : oddSum [] = 0 := rfl

theorem oddSum_cons (v : Int) (l : List Int) :
    oddSum (v :: l) = (if isOddVal v then v else 0) + oddSum l := by
  unfold oddSum odds
  by_cases h : isOddVal v = true <;> simp [List.filter_cons, h]

/-! ## Sequential reducer -/

theorem seqUpdate_eq (acc : Int × Int) (val : Int) :
    seqUpdate acc val = if isOddVal val then applyOdd acc val else acc := by
  unfold seqUpdate applyOdd isOddVal
  rfl

theorem foldl_seqUpdate_eq_odds (l : List Int) (acc : Int × Int) :
    l.foldl seqUpdate acc = (odds l).foldl applyOdd acc := by
  induction l generalizing acc with
  | nil => rfl
  | cons v l ih =>
    by_cases h : isOddVal v = true
    · simp [odds, List.filter_cons, h, seqUpdate_eq, ih]
    · simp [odds, List.filter_cons, h, seqUpdate_eq, ih]

theorem foldl_applyOdd_fst (l : List Int) (acc : Int × Int) (h : wrapInt acc.1 = acc.1) :
    (l.foldl applyOdd acc).1 = wrapInt (acc.1 - l.sum) := by
  induction l generalizing acc with
  | nil => simpa using h.symm
  | cons v l ih =>
    have h1 : wrapInt (applyOdd acc v).1 = (applyOdd acc v).1 := by
      simp only [applyOdd]; unfold wrapInt; omega
    rw [List.foldl_cons, ih _ h1, List.sum_cons]
    simp only [applyOdd]
    unfold wrapInt
    omega

theorem foldl_applyOdd_snd_le (l : List Int) (acc : Int × Int) :
    (l.foldl applyOdd acc).2 ≤ acc.2 ∧ ∀ v ∈ l, (l.foldl applyOdd acc).2 ≤ v := by
  induction l generalizing acc with
  | nil => simp
  | cons v l ih =>
    have h := ih (applyOdd acc v)
    simp only [List.foldl_cons, List.mem_cons, forall_eq_or_imp]
    simp only [applyOdd] at h ⊢
    refine ⟨le_trans h.1 (min_le_left _ _), le_trans h.1 (min_le_right _ _), h.2⟩

theorem foldl_applyOdd_snd_mem (l : List Int) (acc : Int × Int) :
    (l.foldl applyOdd acc).2 = acc.2 ∨ (l.foldl applyOdd acc).2 ∈ l := by
  induction l generalizing acc with
  | nil => simp
  | cons v l ih =>
    simp only [List.foldl_cons, List.mem_cons]
    rcases ih (applyOdd acc v) with h | h
    · rw [h]
      simp only [applyOdd]
      rcases min_choice acc.2 v with h' | h'
      · left; exact h'
      · right; left; exact h'
    · right; right; exact h

theorem getSequential_eq (arr : List Int) :
    getSequential arr = (odds arr).foldl applyOdd (0, INT_MAX) := by
  unfold getSequential
  exact foldl_seqUpdate_eq_odds arr _

theorem getSequential_fst (arr : List Int) :
    (getSequential arr).1 = wrapInt (-(oddSum arr)) := by
  rw [getSequential_eq, foldl_applyOdd_fst _ _ (by decide)]
  simp [oddSum]

theorem getSequential_snd_le (arr : List Int) :
    (getSequential arr).2 ≤ INT_MAX ∧ ∀ v ∈ odds arr, (getSequential arr).2 ≤ v := by
  rw [getSequential_eq]
  exact foldl_applyOdd_snd_le _ _

theorem getSequential_snd_mem (arr : List Int) :
    (getSequential arr).2 = INT_MAX ∨ (getSequential arr).2 ∈ odds arr := by
  rw [getSequential_eq]
  exact foldl_applyOdd_snd_mem _ _

/-- A pair is the result of `getSequential` as soon as its sum is the wrapped
negated odd sum and its minimum is a lower bound of the odd elements and of the
sentinel that is attained. -/
theorem eq_getSequential_of {arr : List Int} {d m : Int}
    (hd : d = wrapInt (-(oddSum arr)))
    (hle : m ≤ INT_MAX) (hlb : ∀ v ∈ odds arr, m ≤ v)
    (hmem : m = INT_MAX ∨ m ∈ odds arr) :
    (d, m) = getSequential arr := by
  have h1 := getSequential_fst arr
  have h2 := getSequential_snd_le arr
  have h3 := getSequential_snd_mem arr
  have hm : m = (getSequential arr).2 := by
    apply le_antisymm
    · rcases h3 with h | h
      · rw [h]; exact hle
      · exact hlb _ h
    · rcases hmem with h | h
      · rw [h]; exact h2.1
      · exact h2.2 _ h
  rw [Prod.ext_iff]
  exact ⟨by rw [hd, h1], hm⟩

theorem applyOdd_rightComm (acc : Int × Int) (x y : Int) :
    applyOdd (applyOdd acc x) y = applyOdd (applyOdd acc y) x := by
  simp only [applyOdd, Prod.mk.injEq]
  refine ⟨?_, ?_⟩
  · unfold wrapInt; omega
  · rw [min_assoc, min_assoc, min_comm x y]

/-! ## Work partition -/

theorem chunk_mul_le (size W i : Nat) (hi : i ≤ W) : i * (size / W) ≤ size :=
  le_trans (Nat.mul_le_mul_right _ hi) (Nat.mul_div_le size W)

theorem isInt_of_le_size {size n : Nat} (hs : (size : Int) ≤ INT_MAX) (hn : n ≤ size) :
    IsInt (n : Int) := by
  unfold IsInt INT_MIN
  unfold INT_MAX at *
  omega

theorem chunkSize_eq {size W : Nat} (hs : (size : Int) ≤ INT_MAX) :
    chunkSize size W = ((size / W : Nat) : Int) := by
  unfold chunkSize
  exact wrapInt_of_isInt (isInt_of_le_size hs (Nat.div_le_self _ _))

theorem workerStart_eq {size W i : Nat} (hs : (size : Int) ≤ INT_MAX) (hi : i ≤ W) :
    workerStart size W i = ((i * (size / W) : Nat) : Int) := by
  unfold workerStart
  rw [chunkSize_eq hs, ← Nat.cast_mul]
  exact wrapInt_of_isInt (isInt_of_le_size hs (chunk_mul_le size W i hi))

theorem workerEnd_eq {size W i : Nat} (hs : (size : Int) ≤ INT_MAX) (hi : i < W) :
    workerEnd size W i =
      if i + 1 = W then (size : Int) else (((i + 1) * (size / W) : Nat) : Int) := by
  unfold workerEnd
  by_cases h : i + 1 = W
  · rw [if_pos h, if_pos h]
    exact wrapInt_of_isInt (isInt_of_le_size hs (le_refl _))
  · rw [if_neg h, if_neg h, workerStart_eq hs (le_of_lt hi), chunkSize_eq hs]
    have h1 : ((i * (size / W) : Nat) : Int) + ((size / W : Nat) : Int)
        = (((i + 1) * (size / W) : Nat) : Int) := by
      push_cast; ring
    rw [h1]
    exact wrapInt_of_isInt (isInt_of_le_size hs (chunk_mul_le size W (i + 1) hi))

theorem workerStart_le_end {size W i : Nat} (hs : (size : Int) ≤ INT_MAX) (hi : i < W) :
    0 ≤ workerStart size W i ∧ workerStart size W i ≤ workerEnd size W i ∧
      workerEnd size W i ≤ size := by
  rw [workerStart_eq hs (le_of_lt hi), workerEnd_eq hs hi]
  have h1 := chunk_mul_le size W i (le_of_lt hi)
  have h2 := chunk_mul_le size W (i + 1) hi
  have h3 : i * (size / W) ≤ (i + 1) * (size / W) := Nat.mul_le_mul_right _ (Nat.le_succ i)
  split_ifs <;> omega

theorem workerEnd_le_start {size W i j : Nat} (hs : (size : Int) ≤ INT_MAX)
    (hij : i < j) (hj : j < W) : workerEnd size W i ≤ workerStart size W j := by
  rw [workerStart_eq hs (le_of_lt hj), workerEnd_eq hs (lt_trans hij hj)]
  have h3 : (i + 1) * (size / W) ≤ j * (size / W) := Nat.mul_le_mul_right _ hij
  rw [if_neg (by omega)]
  exact_mod_cast h3

theorem inRange_disjoint {size W i j : Nat} (hs : (size : Int) ≤ INT_MAX)
    (hi : i < W) (hj : j < W) (hij : i ≠ j) (k : Int) :
    ¬ (inRange size W i k ∧ inRange size W j k) := by
  unfold inRange
  rintro ⟨⟨a1, a2⟩, b1, b2⟩
  rcases Nat.lt_or_gt_of_ne hij with h | h
  · have := workerEnd_le_start hs h hj
    omega
  · have := workerEnd_le_start hs h hi
    omega

theorem inRange_cover {size W : Nat} (hs : (size : Int) ≤ INT_MAX) (hW : 1 ≤ W)
    (k : Nat) (hk : k < size) : ∃ i, i < W ∧ inRange size W i k := by
  by_cases hc : k < (W - 1) * (size / W)
  · have hpos : 0 < size / W := by
      rcases Nat.eq_zero_or_pos (size / W) with h | h
      · rw [h] at hc; simp at hc
      · exact h
    have hq : k / (size / W) < W - 1 := (Nat.div_lt_iff_lt_mul hpos).2 hc
    refine ⟨k / (size / W), by omega, ?_⟩
    unfold inRange
    rw [workerStart_eq hs (by omega), workerEnd_eq hs (by omega), if_neg (by omega)]
    have h1 : k / (size / W) * (size / W) ≤ k := Nat.div_mul_le_self _ _
    have h2 : k < (k / (size / W) + 1) * (size / W) := by
      have := Nat.lt_succ_self (k / (size / W))
      exact (Nat.div_lt_iff_lt_mul hpos).1 this
    constructor
    · exact_mod_cast h1
    · exact_mod_cast h2
  · refine ⟨W - 1, by omega, ?_⟩
    unfold inRange
    rw [workerStart_eq hs (by omega), workerEnd_eq hs (by omega), if_pos (by omega)]
    constructor
    · have : (W - 1) * (size / W) ≤ k := not_lt.1 hc
      exact_mod_cast this
    · exact_mod_cast hk

/-! ## Segments of the array -/

theorem seg_self (arr : List Int) (a : Int) : seg arr a a = [] := by
  unfold seg
  simp

theorem readAt_eq_some {arr : List Int} {i v : Int} (h : readAt arr i = some v) :
    0 ≤ i ∧ i.toNat < arr.length ∧ arr[i.toNat]? = some v := by
  unfold readAt at h
  split_ifs at h with h0
  refine ⟨h0, ?_, h⟩
  exact (List.getElem?_eq_some_iff.1 h).1

theorem readAt_mem {arr : List Int} {i v : Int} (h : readAt arr i = some v) : v ∈ arr :=
  by
  obtain ⟨_, h2, h3⟩ := readAt_eq_some h
  obtain ⟨h4, h5⟩ := List.getElem?_eq_some_iff.1 h3
  rw [← h5]
  exact List.getElem_mem _

theorem seg_succ {arr : List Int} {a i v : Int} (ha : 0 ≤ a) (hai : a ≤ i)
    (h : readAt arr i = some v) : seg arr a (i + 1) = seg arr a i ++ [v] := by
  obtain ⟨h0, hlt, hv⟩ := readAt_eq_some h
  unfold seg
  have h1 : (i + 1).toNat = i.toNat + 1 := by omega
  rw [h1, List.take_succ, hv]
  simp only [Option.toList]
  rw [List.drop_append_of_le_length]
  rw [List.length_take]
  omega

theorem seg_eq_take_drop (arr : List Int) (a b : Int) :
    seg arr a b = (arr.drop a.toNat).take (b.toNat - a.toNat) := by
  unfold seg
  rw [List.drop_take]

theorem seg_append {arr : List Int} {a b c : Int} (hab : a ≤ b) (hbc : b ≤ c) :
    seg arr a c = seg arr a b ++ seg arr b c := by
  rw [seg_eq_take_drop, seg_eq_take_drop, seg_eq_take_drop]
  have h1 : c.toNat - a.toNat = (b.toNat - a.toNat) + (c.toNat - b.toNat) := by omega
  have h2 : a.toNat + (b.toNat - a.toNat) = b.toNat := by omega
  rw [h1, List.take_add, List.drop_drop, h2]

theorem seg_zero_length (arr : List Int) : seg arr 0 (arr.length : Int) = arr := by
  unfold seg
  simp

theorem seg_mem_take {arr : List Int} {a b : Int} {v : Int} (h : v ∈ seg arr a b) :
    v ∈ arr.take b.toNat := by
  unfold seg at h
  exact List.mem_of_mem_drop h

/-! ## Replacing one worker in the list of workers -/

theorem sum_map_set {α : Type} (f : α → Int) (l : List α) (t : Nat) (a b : α)
    (h : l[t]? = some a) : ((l.set t b).map f).sum = (l.map f).sum - f a + f b := by
  induction l generalizing t with
  | nil => simp at h
  | cons x l ih =>
    cases t with
    | zero =>
      simp only [List.getElem?_cons_zero, Option.some.injEq] at h
      subst h
      simp only [List.set_cons_zero, List.map_cons, List.sum_cons]
      omega
    | succ t =>
      simp only [List.getElem?_cons_succ] at h
      simp only [List.set_cons_succ, List.map_cons, List.sum_cons, ih t h]
      omega

theorem sum_map_set_nat {α : Type} (f : α → Nat) (l : List α) (t : Nat) (a b : α)
    (h : l[t]? = some a) : ((l.set t b).map f).sum + f a = (l.map f).sum + f b := by
  induction l generalizing t with
  | nil => simp at h
  | cons x l ih =>
    cases t with
    | zero =>
      simp only [List.getElem?_cons_zero, Option.some.injEq] at h
      subst h
      simp only [List.set_cons_zero, List.map_cons, List.sum_cons]
      omega
    | succ t =>
      simp only [List.getElem?_cons_succ] at h
      have := ih t h
      simp only [List.set_cons_succ, List.map_cons, List.sum_cons]
      omega

theorem mem_set_cases {α : Type} {l : List α} {t : Nat} {a b : α} (h : a ∈ l.set t b) :
    a ∈ l ∨ a = b := by
  induction l generalizing t with
  | nil => simp at h
  | cons x l ih =>
    cases t with
    | zero =>
      simp only [List.set_cons_zero, List.mem_cons] at h
      rcases h with h | h
      · right; exact h
      · left; exact List.mem_cons_of_mem _ h
    | succ t =>
      simp only [List.set_cons_succ, List.mem_cons] at h
      rcases h with h | h
      · left; rw [h]; exact List.mem_cons_self _ _
      · rcases ih h with h | h
        · left; exact List.mem_cons_of_mem _ h
        · right; exact h

theorem mem_of_getElem?_eq_some {α : Type} {l : List α} {t : Nat} {a : α}
    (h : l[t]? = some a) : a ∈ l := by
  obtain ⟨h1, h2⟩ := List.getElem?_eq_some_iff.1 h
  rw [← h2]
  exact List.getElem_mem _

/-! ## Every move keeps the accumulator invariant -/

theorem Move.workerOK {arr : List Int} {d m d' m' : Int} {p p' : Progress}
    (hm : Move arr d m p d' m' p') (h : WorkerOK arr p) : WorkerOK arr p' := by
  obtain ⟨h1, h2, h3, h4⟩ := h
  cases hm with
  | stutter => exact ⟨h1, h2, h3, h4⟩
  | skip v hs hi hr ho =>
    have h0 := (readAt_eq_some hr).1
    refine ⟨?_, ?_, ?_, ?_⟩ <;> simp_all <;> omega
  | fetch v hs hi hr ho =>
    have h0 := (readAt_eq_some hr).1
    refine ⟨?_, ?_, ?_, ?_⟩ <;> simp_all
    omega
  | fault hs => refine ⟨?_, ?_, ?_, ?_⟩ <;> simp_all
  | finish hs hi => refine ⟨?_, ?_, ?_, ?_⟩ <;> simp_all
  | applySum hs => refine ⟨?_, ?_, ?_, ?_⟩ <;> simp_all
  | applyMin hs => refine ⟨?_, ?_, ?_, ?_⟩ <;> simp_all
  | next hs => refine ⟨?_, ?_, ?_, ?_⟩ <;> simp_all <;> omega
  | applyMinNext hs => refine ⟨?_, ?_, ?_, ?_⟩ <;> simp_all <;> omega

theorem oddSum_seg_succ {arr : List Int} {a i v : Int} (ha : 0 ≤ a) (hai : a ≤ i)
    (h : readAt arr i = some v) :
    oddSum (seg arr a (i + 1)) = oddSum (seg arr a i) + (if isOddVal v then v else 0) := by
  rw [seg_succ ha hai h, oddSum_append, oddSum_cons, oddSum_nil]
  omega

theorem odds_seg_succ {arr : List Int} {a i v : Int} (ha : 0 ≤ a) (hai : a ≤ i)
    (h : readAt arr i = some v) :
    odds (seg arr a (i + 1)) = odds (seg arr a i) ++ (if isOddVal v then [v] else []) := by
  rw [seg_succ ha hai h, odds_append]
  congr 1
  by_cases hv : isOddVal v = true <;> simp [odds, hv]

theorem WorkerOK.start_nonneg_of_read {arr : List Int} {p : Progress} {v : Int}
    (h : WorkerOK arr p) (hr : readAt arr p.i = some v) : 0 ≤ p.start := by
  have h0 := (readAt_eq_some hr).1
  rcases h.range with h1 | h1
  · omega
  · exact h1.1

theorem Move.sumDone_eq {arr : List Int} {d m d' m' : Int} {p p' : Progress}
    (hm : Move arr d m p d' m' p') (h : WorkerOK arr p) :
    (p'.sumDone arr = p.sumDone arr ∧ d' = d) ∨
      (p'.sumDone arr = p.sumDone arr + p.val ∧ d' = wrapInt (d - p.val)) := by
  cases hm with
  | stutter => left; simp
  | skip v hs hi hr ho =>
    left
    simp [Progress.sumDone, hs, oddSum_seg_succ (h.start_nonneg_of_read hr) h.start_le hr, ho]
  | fetch v hs hi hr ho => left; simp [Progress.sumDone, hs]
  | fault hs => left; simp [Progress.sumDone, hs]
  | finish hs hi => left; simp [Progress.sumDone, hs]
  | applySum hs => right; simp [Progress.sumDone, hs]
  | applyMin hs => left; simp [Progress.sumDone, hs]
  | next hs =>
    left
    obtain ⟨h0, h1, h2, h3⟩ := h.mid (by simp [hs])
    simp [Progress.sumDone, hs, oddSum_seg_succ h0 h.start_le h2, h3]
  | applyMinNext hs =>
    left
    obtain ⟨h0, h1, h2, h3⟩ := h.mid (by simp [hs])
    simp [Progress.sumDone, hs, oddSum_seg_succ h0 h.start_le h2, h3]

theorem Move.cntDone_eq {arr : List Int} {d m d' m' : Int} {p p' : Progress}
    (hm : Move arr d m p d' m' p') (h : WorkerOK arr p) :
    p'.cntDone arr = p.cntDone arr +
      (if p.stage = .pendingSum ∧ p'.stage = .pendingMin then 1 else 0) := by
  cases hm with
  | stutter =>
    by_cases h1 : p.stage = .pendingSum <;> simp [h1]
  | skip v hs hi hr ho =>
    simp [Progress.cntDone, hs, odds_seg_succ (h.start_nonneg_of_read hr) h.start_le hr, ho]
  | fetch v hs hi hr ho => simp [Progress.cntDone, hs]
  | fault hs => simp [Progress.cntDone, hs]
  | finish hs hi => simp [Progress.cntDone, hs]
  | applySum hs => simp [Progress.cntDone, hs]
  | applyMin hs => simp [Progress.cntDone, hs]
  | next hs =>
    obtain ⟨h0, h1, h2, h3⟩ := h.mid (by simp [hs])
    simp [Progress.cntDone, hs, odds_seg_succ h0 h.start_le h2, h3]
  | applyMinNext hs =>
    obtain ⟨h0, h1, h2, h3⟩ := h.mid (by simp [hs])
    simp [Progress.cntDone, hs, odds_seg_succ h0 h.start_le h2, h3]

theorem Move.min_le {arr : List Int} {d m d' m' : Int} {p p' : Progress}
    (hm : Move arr d m p d' m' p') : m' ≤ m := by
  cases hm <;> first | exact le_refl _ | exact min_le_left _ _

theorem Move.minSeen_mono {arr : List Int} {d m d' m' : Int} {p p' : Progress}
    (hm : Move arr d m p d' m' p') (h : WorkerOK arr p) :
    ∀ v ∈ p.minSeen arr, v ∈ p'.minSeen arr := by
  cases hm with
  | stutter => exact fun v hv => hv
  | skip v hs hi hr ho =>
    simp [Progress.minSeen, hs, odds_seg_succ (h.start_nonneg_of_read hr) h.start_le hr, ho]
  | fetch v hs hi hr ho => simp [Progress.minSeen, hs]
  | fault hs => simp [Progress.minSeen, hs]
  | finish hs hi => simp [Progress.minSeen, hs]
  | applySum hs =>
    intro v hv
    simp only [Progress.minSeen, hs] at hv ⊢
    simp only [List.mem_append] at hv ⊢
    rcases hv with hv | hv
    · left; exact hv
    · simp at hv
  | applyMin hs => simp [Progress.minSeen, hs]
  | next hs =>
    obtain ⟨h0, h1, h2, h3⟩ := h.mid (by simp [hs])
    simp [Progress.minSeen, hs, odds_seg_succ h0 h.start_le h2, h3]
  | applyMinNext hs =>
    obtain ⟨h0, h1, h2, h3⟩ := h.mid (by simp [hs])
    simp [Progress.minSeen, hs, odds_seg_succ h0 h.start_le h2, h3]

theorem Move.min_mem {arr : List Int} {d m d' m' : Int} {p p' : Progress}
    (hm : Move arr d m p d' m' p') (h : WorkerOK arr p) :
    m' = m ∨ m' ∈ p'.minSeen arr := by
  cases hm with
  | applyMin hs =>
    rcases min_choice m p.val with h' | h'
    · left; exact h'
    · right; rw [h']; simp [Progress.minSeen]
  | applyMinNext hs =>
    obtain ⟨h0, h1, h2, h3⟩ := h.mid (by simp [hs])
    rcases min_choice m p.val with h' | h'
    · left; exact h'
    · right; rw [h']
      simp [Progress.minSeen, odds_seg_succ h0 h.start_le h2, h3]
  | _ => left; rfl

theorem Move.minDone_le {arr : List Int} {d m d' m' : Int} {p p' : Progress}
    (hm : Move arr d m p d' m' p') (h : WorkerOK arr p)
    (hlb : ∀ v ∈ p.minDone arr, m ≤ v) : ∀ v ∈ p'.minDone arr, m' ≤ v := by
  cases hm with
  | stutter => exact hlb
  | skip v hs hi hr ho =>
    simpa [Progress.minDone, hs, odds_seg_succ (h.start_nonneg_of_read hr) h.start_le hr, ho]
      using hlb
  | fetch v hs hi hr ho => simpa [Progress.minDone, hs] using hlb
  | fault hs => simpa [Progress.minDone, hs] using hlb
  | finish hs hi => simpa [Progress.minDone, hs] using hlb
  | applySum hs => simpa [Progress.minDone, hs] using hlb
  | applyMin hs =>
    intro v hv
    simp only [Progress.minDone, hs] at hlb hv
    simp only [List.mem_append, if_true, List.mem_singleton] at hv
    rcases hv with hv | hv
    · exact le_trans (min_le_left _ _) (hlb v (by simpa using hv))
    · rw [hv]; exact min_le_right _ _
  | next hs =>
    obtain ⟨h0, h1, h2, h3⟩ := h.mid (by simp [hs])
    simpa [Progress.minDone, hs, odds_seg_succ h0 h.start_le h2, h3] using hlb
  | applyMinNext hs =>
    obtain ⟨h0, h1, h2, h3⟩ := h.mid (by simp [hs])
    intro v hv
    simp only [Progress.minDone, hs, odds_seg_succ h0 h.start_le h2, h3] at hlb hv
    simp only [List.mem_append, if_true, List.mem_singleton] at hv
    rcases hv with hv | hv
    · rcases hv with hv | hv
      · exact le_trans (min_le_left _ _) (hlb v (by simpa using hv))
      · rw [hv]; exact min_le_right _ _
    · simp at hv

/-- Every move of one worker keeps the accumulator invariant. -/
theorem AInv.after_move {arr : List Int} {d m d' m' : Int} {ps : List Progress} {t : Nat}
    {p p' : Progress} (h : AInv arr d m ps) (ht : ps[t]? = some p)
    (hm : Move arr d m p d' m' p') : AInv arr d' m' (ps.set t p') := by
  have hp : p ∈ ps := mem_of_getElem?_eq_some ht
  have hok := h.ok p hp
  refine ⟨?_, ?_, ?_, ?_, ?_⟩
  · intro q hq
    rcases mem_set_cases hq with hq | hq
    · exact h.ok q hq
    · rw [hq]; exact hm.workerOK hok
  · rw [sum_map_set _ _ _ _ _ ht]
    have hd := h.sum
    rcases hm.sumDone_eq hok with ⟨h1, h2⟩ | ⟨h1, h2⟩
    · rw [h1, h2, hd]
      congr 2
      omega
    · rw [h1, h2, hd]
      unfold wrapInt
      omega
  · intro q hq v hv
    rcases mem_set_cases hq with hq | hq
    · exact le_trans hm.min_le (h.lb q hq v hv)
    · rw [hq] at hv
      exact hm.minDone_le hok (h.lb p hp) v hv
  · exact le_trans hm.min_le h.le
  · have hlt : t < ps.length := (List.getElem?_eq_some_iff.1 ht).1
    have hp' : p' ∈ ps.set t p' := List.mem_iff_getElem?.2 ⟨t, by simp [List.getElem?_set, hlt]⟩
    rcases hm.min_mem hok with h1 | h1
    · rw [h1]
      rcases h.mem with h2 | ⟨q, hq, hv⟩
      · left; exact h2
      · right
        obtain ⟨j, hj⟩ := List.mem_iff_getElem?.1 hq
        by_cases hjt : t = j
        · subst hjt
          rw [ht] at hj
          simp only [Option.some.injEq] at hj
          subst hj
          exact ⟨p', hp', hm.minSeen_mono hok m hv⟩
        · refine ⟨q, List.mem_iff_getElem?.2 ⟨j, ?_⟩, hv⟩
          simp [List.getElem?_set, hjt, hj]
    · right; exact ⟨p', hp', h1⟩

/-! ## The lock-free machine keeps the invariant -/

theorem nbWorkerStep_move (arr : List Int) (ok : Bool) (d m : Int) (w : NBWorker)
    (hl : NBLocal w) :
    Move arr d m (nbView w) (nbWorkerStep arr ok d m w).1 (nbWorkerStep arr ok d m w).2.1
      (nbView (nbWorkerStep arr ok d m w).2.2) ∧ NBLocal (nbWorkerStep arr ok d m w).2.2 := by
  obtain ⟨start, stop, i, val, oldVal, newVal, pc⟩ := w
  cases pc with
  | loopHead =>
    simp only [nbWorkerStep]
    by_cases hi : i < stop
    · rw [if_pos hi]
      cases hr : readAt arr i with
      | none =>
        simp only []
        exact ⟨Move.fault d m _ rfl, by simp [NBLocal]⟩
      | some v =>
        simp only []
        by_cases hv : Int.tmod v 2 != 0
        · rw [if_pos hv]
          exact ⟨Move.fetch d m (nbView _) v rfl hi hr hv, by simp [NBLocal]⟩
        · rw [if_neg hv]
          refine ⟨Move.skip d m (nbView _) v rfl hi hr ?_, by simp [NBLocal]⟩
          simpa [isOddVal] using hv
    · rw [if_neg hi]
      exact ⟨Move.finish d m (nbView _) rfl hi, by simp [NBLocal]⟩
  | sumLoad =>
    simp only [nbWorkerStep]
    exact ⟨Move.stutter d m _, by simp [NBLocal]⟩
  | sumCas =>
    simp only [nbWorkerStep]
    by_cases hc : (ok && d == oldVal) = true
    · rw [if_pos hc]
      simp only [Bool.and_eq_true, beq_iff_eq] at hc
      have hn : newVal = wrapInt (d - val) := by
        have := hl.1 rfl
        simp only at this
        rw [this, hc.2]
      simp only []
      rw [hn]
      exact ⟨Move.applySum d m (nbView _) rfl, by simp [NBLocal]⟩
    · rw [if_neg hc]
      exact ⟨Move.stutter d m _, by simp [NBLocal]⟩
  | minLoad =>
    simp only [nbWorkerStep]
    by_cases hc : val < m
    · rw [if_pos hc]
      exact ⟨Move.stutter d m _, by simp [NBLocal, hc]⟩
    · rw [if_neg hc]
      have hmin : min m val = m := min_eq_left (not_lt.1 hc)
      have := @Move.applyMinNext arr d m
        (nbView ⟨start, stop, i, val, oldVal, newVal, .minLoad⟩) rfl
      simp only [nbView, hmin] at this
      exact ⟨this, by simp [NBLocal]⟩
  | minCas =>
    simp only [nbWorkerStep]
    by_cases hc : (ok && m == oldVal) = true
    · rw [if_pos hc]
      simp only [Bool.and_eq_true, beq_iff_eq] at hc
      have hn : newVal = min m val := by
        have := (hl.2 rfl).2
        simp only at this
        rw [this, hc.2]
      simp only []
      rw [hn]
      exact ⟨Move.applyMinNext d m (nbView _) rfl, by simp [NBLocal]⟩
    · rw [if_neg hc]
      exact ⟨Move.stutter d m _, by simp [NBLocal]⟩
  | finished =>
    simp only [nbWorkerStep]
    exact ⟨Move.stutter d m _, hl⟩
  | faulted =>
    simp only [nbWorkerStep]
    exact ⟨Move.stutter d m _, hl⟩

theorem NBInv.nb_step {arr : List Int} {s : NBState} (h : NBInv arr s) (c : Nat × Bool) :
    NBInv arr (nbStep arr s c) := by
  unfold nbStep
  cases hw : s.workers[c.1]? with
  | none => exact h
  | some w =>
    have hwm : w ∈ s.workers := mem_of_getElem?_eq_some hw
    obtain ⟨hmove, hloc⟩ := nbWorkerStep_move arr c.2 s.diffOdd s.minOdd w (h.2 w hwm)
    refine ⟨?_, ?_⟩
    · simp only [List.map_set]
      exact h.1.after_move (by simp [hw]) hmove
    · intro w' hw'
      rcases mem_set_cases hw' with h1 | h1
      · exact h.2 w' h1
      · rw [h1]; exact hloc

theorem NBInv.nb_run {arr : List Int} {s : NBState} (h : NBInv arr s) (sched : List (Nat × Bool)) :
    NBInv arr (nbRun arr s sched) := by
  unfold nbRun
  induction sched generalizing s with
  | nil => exact h
  | cons c cs ih => exact ih (h.nb_step c)

theorem AInv.at_start (arr : List Int) (ps : List Progress)
    (h : ∀ p ∈ ps, p.i = p.start ∧ p.stage = .idle) : AInv arr 0 INT_MAX ps := by
  have hs : ∀ p ∈ ps, Progress.sumDone arr p = 0 := by
    intro p hp
    obtain ⟨h1, h2⟩ := h p hp
    simp [Progress.sumDone, h1, h2, seg_self, oddSum_nil]
  refine ⟨?_, ?_, ?_, le_refl _, Or.inl rfl⟩
  · intro p hp
    obtain ⟨h1, h2⟩ := h p hp
    refine ⟨by omega, Or.inl h1, ?_, ?_⟩ <;> simp [h2]
  · have : (ps.map (Progress.sumDone arr)).sum = 0 := by
      apply List.sum_eq_zero
      intro x hx
      obtain ⟨p, hp, rfl⟩ := List.mem_map.1 hx
      exact hs p hp
    rw [this]
    decide
  · intro p hp v hv
    obtain ⟨h1, h2⟩ := h p hp
    simp [Progress.minDone, h1, h2, seg_self, odds] at hv

theorem NBInv.nb_init (W : Nat) (arr : List Int) : NBInv arr (nbInit W arr) := by
  refine ⟨?_, ?_⟩
  · apply AInv.at_start
    intro p hp
    simp only [nbInit, List.map_map, List.mem_map, List.mem_range] at hp
    obtain ⟨t, _, rfl⟩ := hp
    exact ⟨rfl, rfl⟩
  · intro w hw
    simp only [nbInit, List.mem_map, List.mem_range] at hw
    obtain ⟨t, _, rfl⟩ := hw
    simp [NBLocal, nbWorkerInit]

theorem NBInv.nb_reach (W : Nat) (arr : List Int) (sched : List (Nat × Bool)) :
    NBInv arr (nbRun arr (nbInit W arr) sched) :=
  (NBInv.nb_init W arr).nb_run sched

/-! ## The mutex-protected machine keeps the invariant -/

theorem bWorkerStep_move (arr : List Int) (t : Nat) (d m : Int) (o : Option Nat) (w : BWorker)
    (h1 : w.pc = .sumWrite → w.tmp = d) (h2 : w.pc = .minWrite → w.tmp = m) :
    Move arr d m (bView w) (bWorkerStep arr t d m o w).1 (bWorkerStep arr t d m o w).2.1
      (bView (bWorkerStep arr t d m o w).2.2.2) := by
  obtain ⟨start, stop, i, val, tmp, pc⟩ := w
  cases pc with
  | loopHead =>
    simp only [bWorkerStep]
    by_cases hi : i < stop
    · rw [if_pos hi]
      cases hr : readAt arr i with
      | none => exact Move.fault d m _ rfl
      | some v =>
        simp only []
        by_cases hv : Int.tmod v 2 != 0
        · rw [if_pos hv]
          exact Move.fetch d m (bView _) v rfl hi hr hv
        · rw [if_neg hv]
          refine Move.skip d m (bView _) v rfl hi hr ?_
          simpa [isOddVal] using hv
    · rw [if_neg hi]
      exact Move.finish d m (bView _) rfl hi
  | lock =>
    simp only [bWorkerStep]
    cases o <;> exact Move.stutter d m _
  | sumRead => exact Move.stutter d m _
  | sumWrite =>
    simp only [bWorkerStep]
    have : tmp = d := h1 rfl
    rw [this]
    exact Move.applySum d m (bView _) rfl
  | minRead => exact Move.stutter d m _
  | minWrite =>
    simp only [bWorkerStep]
    have : tmp = m := h2 rfl
    rw [this]
    exact Move.applyMin d m (bView _) rfl
  | unlock => exact Move.next d m (bView _) rfl
  | finished => exact Move.stutter d m _
  | faulted => exact Move.stutter d m _

theorem BLocal.local_step {arr : List Int} {s : BState} (h : BLocal s) (t : Nat) :
    BLocal (bStep arr s t) := by
  unfold bStep
  cases hw : s.workers[t]? with
  | none => exact h
  | some w =>
    have hlt : t < s.workers.length := (List.getElem?_eq_some_iff.1 hw).1
    obtain ⟨hcs, hsw, hmw⟩ := h t w hw
    intro t2 w2 h2
    simp only [List.getElem?_set, hlt, if_true] at h2
    by_cases ht : t = t2
    · subst ht
      simp only [if_true, Option.some.injEq] at h2
      subst h2
      obtain ⟨start, stop, i, val, tmp, pc⟩ := w
      cases pc with
      | loopHead =>
        simp only [bWorkerStep]
        simp only [Bpc.inCS] at hcs
        split_ifs
        · cases hr : readAt arr i with
          | none => simpa [Bpc.inCS] using hcs
          | some v =>
            simp only []
            split_ifs <;> simpa [Bpc.inCS] using hcs
        · simpa [Bpc.inCS] using hcs
      | lock =>
        simp only [bWorkerStep]
        simp only [Bpc.inCS] at hcs
        cases ho : s.owner with
        | none => simp [Bpc.inCS]
        | some x => simpa [Bpc.inCS, ho] using hcs
      | sumRead => simpa [bWorkerStep, Bpc.inCS] using hcs
      | sumWrite => simpa [bWorkerStep, Bpc.inCS] using hcs
      | minRead => simpa [bWorkerStep, Bpc.inCS] using hcs
      | minWrite => simpa [bWorkerStep, Bpc.inCS] using hcs
      | unlock => simp [bWorkerStep, Bpc.inCS]
      | finished => simpa [bWorkerStep, Bpc.inCS] using hcs
      | faulted => simpa [bWorkerStep, Bpc.inCS] using hcs
    · rw [if_neg ht] at h2
      obtain ⟨hcs2, hsw2, hmw2⟩ := h t2 w2 h2
      have hne : ∀ x : Nat, x = t → ¬ (x = t2) := by intro x hx; omega
      obtain ⟨start, stop, i, val, tmp, pc⟩ := w
      cases pc with
      | loopHead =>
        simp only [bWorkerStep]
        split_ifs
        · cases hr : readAt arr i with
          | none => exact ⟨hcs2, hsw2, hmw2⟩
          | some v =>
            simp only []
            split_ifs <;> exact ⟨hcs2, hsw2, hmw2⟩
        · exact ⟨hcs2, hsw2, hmw2⟩
      | lock =>
        simp only [bWorkerStep]
        cases ho : s.owner with
        | none =>
          simp only [ho] at hcs2
          refine ⟨?_, hsw2, hmw2⟩
          simp only [Option.some.injEq]
          constructor
          · intro hh; exact absurd (hcs2.1 hh) (by simp)
          · intro hh; exact absurd hh ht
        | some x =>
          rw [ho] at hcs2
          exact ⟨hcs2, hsw2, hmw2⟩
      | sumRead => exact ⟨hcs2, hsw2, hmw2⟩
      | sumWrite =>
        simp only [bWorkerStep]
        have hown : s.owner = some t := hcs.1 rfl
        have hnot : w2.pc.inCS = false := by
          cases hb : w2.pc.inCS with
          | false => rfl
          | true =>
            have := hcs2.1 hb
            rw [hown] at this
            exact absurd (Option.some.inj this) ht
        refine ⟨hcs2, ?_, hmw2⟩
        intro hpc
        rw [hpc] at hnot
        simp [Bpc.inCS] at hnot
      | minRead => exact ⟨hcs2, hsw2, hmw2⟩
      | minWrite =>
        simp only [bWorkerStep]
        have hown : s.owner = some t := hcs.1 rfl
        have hnot : w2.pc.inCS = false := by
          cases hb : w2.pc.inCS with
          | false => rfl
          | true =>
            have := hcs2.1 hb
            rw [hown] at this
            exact absurd (Option.some.inj this) ht
        refine ⟨hcs2, hsw2, ?_⟩
        intro hpc
        rw [hpc] at hnot
        simp [Bpc.inCS] at hnot
      | unlock =>
        simp only [bWorkerStep]
        have hown : s.owner = some t := hcs.1 rfl
        have hnot : w2.pc.inCS = false := by
          cases hb : w2.pc.inCS with
          | false => rfl
          | true =>
            have := hcs2.1 hb
            rw [hown] at this
            exact absurd (Option.some.inj this) ht
        refine ⟨?_, hsw2, hmw2⟩
        simp [hnot]
      | finished => exact ⟨hcs2, hsw2, hmw2⟩
      | faulted => exact ⟨hcs2, hsw2, hmw2⟩

theorem BInv.b_step {arr : List Int} {s : BState} (h : BInv arr s) (t : Nat) :
    BInv arr (bStep arr s t) := by
  refine ⟨?_, h.2.local_step t⟩
  unfold bStep
  cases hw : s.workers[t]? with
  | none => exact h.1
  | some w =>
    obtain ⟨_, hsw, hmw⟩ := h.2 t w hw
    have hmove := bWorkerStep_move arr t s.diffOdd s.minOdd s.owner w hsw hmw
    simp only [List.map_set]
    exact h.1.after_move (by simp [hw]) hmove

theorem BInv.b_run {arr : List Int} {s : BState} (h : BInv arr s) (sched : List Nat) :
    BInv arr (bRun arr s sched) := by
  unfold bRun
  induction sched generalizing s with
  | nil => exact h
  | cons c cs ih => exact ih (h.b_step c)

theorem BInv.b_init (W : Nat) (arr : List Int) : BInv arr (bInit W arr) := by
  refine ⟨?_, ?_⟩
  · apply AInv.at_start
    intro p hp
    simp only [bInit, List.map_map, List.mem_map, List.mem_range] at hp
    obtain ⟨t, _, rfl⟩ := hp
    exact ⟨rfl, rfl⟩
  · intro t w hw
    simp only [bInit] at hw
    have hmem := mem_of_getElem?_eq_some hw
    simp only [List.mem_map, List.mem_range] at hmem
    obtain ⟨t', _, rfl⟩ := hmem
    simp [bInit, bWorkerInit, Bpc.inCS]

theorem BInv.b_reach (W : Nat) (arr : List Int) (sched : List Nat) :
    BInv arr (bRun arr (bInit W arr) sched) :=
  (BInv.b_init W arr).b_run sched

/-! ## The worker bounds never change -/

theorem Move.bounds_eq {arr : List Int} {d m d' m' : Int} {p p' : Progress}
    (hm : Move arr d m p d' m' p') : (p'.start, p'.stop) = (p.start, p.stop) := by
  cases hm <;> rfl

theorem map_set_of_eq {α β : Type} (f : α → β) (l : List α) (t : Nat) (a b : α)
    (h : l[t]? = some a) (hf : f b = f a) : (l.set t b).map f = l.map f := by
  induction l generalizing t with
  | nil => simp
  | cons x l ih =>
    cases t with
    | zero =>
      simp only [List.getElem?_cons_zero, Option.some.injEq] at h
      subst h
      simp [hf]
    | succ t =>
      simp only [List.getElem?_cons_succ] at h
      simp [ih t h]

theorem Shape.after_move_shape {arr : List Int} {size W : Nat} {d m d' m' : Int} {ps : List Progress}
    {t : Nat} {p p' : Progress} (h : Shape size W ps) (ht : ps[t]? = some p)
    (hm : Move arr d m p d' m' p') : Shape size W (ps.set t p') := by
  unfold Shape at *
  rw [map_set_of_eq _ _ _ _ _ ht hm.bounds_eq]
  exact h

theorem Shape.mem {size W : Nat} {ps : List Progress} (h : Shape size W ps) {p : Progress}
    (hp : p ∈ ps) : ∃ t, t < W ∧ p.start = workerStart size W t ∧ p.stop = workerEnd size W t := by
  have : (p.start, p.stop) ∈ ps.map (fun p => (p.start, p.stop)) :=
    List.mem_map.2 ⟨p, hp, rfl⟩
  rw [h] at this
  obtain ⟨t, ht, he⟩ := List.mem_map.1 this
  rw [Prod.mk.injEq] at he
  exact ⟨t, List.mem_range.1 ht, he.1.symm, he.2.symm⟩

theorem Shape.exists_mem {size W : Nat} {ps : List Progress} (h : Shape size W ps) {t : Nat}
    (ht : t < W) : ∃ p ∈ ps, p.start = workerStart size W t ∧ p.stop = workerEnd size W t := by
  have : (workerStart size W t, workerEnd size W t) ∈
      (List.range W).map (fun t => (workerStart size W t, workerEnd size W t)) :=
    List.mem_map.2 ⟨t, List.mem_range.2 ht, rfl⟩
  rw [← h] at this
  obtain ⟨p, hp, he⟩ := List.mem_map.1 this
  rw [Prod.mk.injEq] at he
  exact ⟨p, hp, he.1, he.2⟩

theorem nb_shape_step {arr : List Int} {size W : Nat} {s : NBState}
    (hl : ∀ w ∈ s.workers, NBLocal w)
    (h : Shape size W (s.workers.map nbView)) (c : Nat × Bool) :
    Shape size W ((nbStep arr s c).workers.map nbView) := by
  unfold nbStep
  cases hw : s.workers[c.1]? with
  | none => exact h
  | some w =>
    have hwm : w ∈ s.workers := mem_of_getElem?_eq_some hw
    obtain ⟨hmove, _⟩ := nbWorkerStep_move arr c.2 s.diffOdd s.minOdd w (hl w hwm)
    simp only [List.map_set]
    exact h.after_move_shape (by simp [hw]) hmove

theorem nb_shape_run {arr : List Int} {size W : Nat} {s : NBState} (hi : NBInv arr s)
    (h : Shape size W (s.workers.map nbView)) (sched : List (Nat × Bool)) :
    Shape size W ((nbRun arr s sched).workers.map nbView) := by
  unfold nbRun
  induction sched generalizing s with
  | nil => exact h
  | cons c cs ih => exact ih (hi.nb_step c) (nb_shape_step hi.2 h c)

theorem nb_shape_init (W : Nat) (arr : List Int) :
    Shape arr.length W ((nbInit W arr).workers.map nbView) := by
  simp [Shape, nbInit, nbView, nbWorkerInit]

theorem nb_shape_reach (W : Nat) (arr : List Int) (sched : List (Nat × Bool)) :
    Shape arr.length W ((nbRun arr (nbInit W arr) sched).workers.map nbView) :=
  nb_shape_run (NBInv.nb_init W arr) (nb_shape_init W arr) sched

theorem b_shape_step {arr : List Int} {size W : Nat} {s : BState} (hl : BLocal s)
    (h : Shape size W (s.workers.map bView)) (t : Nat) :
    Shape size W ((bStep arr s t).workers.map bView) := by
  unfold bStep
  cases hw : s.workers[t]? with
  | none => exact h
  | some w =>
    obtain ⟨_, hsw, hmw⟩ := hl t w hw
    have hmove := bWorkerStep_move arr t s.diffOdd s.minOdd s.owner w hsw hmw
    simp only [List.map_set]
    exact h.after_move_shape (by simp [hw]) hmove

theorem b_shape_run {arr : List Int} {size W : Nat} {s : BState} (hi : BInv arr s)
    (h : Shape size W (s.workers.map bView)) (sched : List Nat) :
    Shape size W ((bRun arr s sched).workers.map bView) := by
  unfold bRun
  induction sched generalizing s with
  | nil => exact h
  | cons c cs ih => exact ih (hi.b_step c) (b_shape_step hi.2 h c)

theorem b_shape_init (W : Nat) (arr : List Int) :
    Shape arr.length W ((bInit W arr).workers.map bView) := by
  simp [Shape, bInit, bView, bWorkerInit]

theorem b_shape_reach (W : Nat) (arr : List Int) (sched : List Nat) :
    Shape arr.length W ((bRun arr (bInit W arr) sched).workers.map bView) :=
  b_shape_run (BInv.b_init W arr) (b_shape_init W arr) sched

/-! ## The ranges of the workers, put end to end, are the array -/

theorem segs_upto (arr : List Int) (c k : Nat) :
    ((List.range k).map (fun t => seg arr ((t * c : Nat) : Int) (((t + 1) * c : Nat) : Int))).flatten
      = seg arr 0 ((k * c : Nat) : Int) := by
  induction k with
  | zero => simp [seg]
  | succ k ih =>
    rw [List.range_succ, List.map_append, List.flatten_append, ih]
    simp only [List.map_cons, List.map_nil, List.flatten_cons, List.flatten_nil, List.append_nil]
    rw [← seg_append (by positivity)]
    have : k * c ≤ (k + 1) * c := Nat.mul_le_mul_right _ (Nat.le_succ k)
    exact_mod_cast this

theorem segs_flatten (arr : List Int) (W : Nat) (hW : 1 ≤ W)
    (hs : (arr.length : Int) ≤ INT_MAX) :
    ((List.range W).map (fun t =>
      seg arr (workerStart arr.length W t) (workerEnd arr.length W t))).flatten = arr := by
  obtain ⟨k, rfl⟩ : ∃ k, W = k + 1 := ⟨W - 1, by omega⟩
  rw [List.range_succ, List.map_append, List.flatten_append]
  have h1 : (List.range k).map (fun t =>
      seg arr (workerStart arr.length (k + 1) t) (workerEnd arr.length (k + 1) t))
      = (List.range k).map (fun t => seg arr ((t * (arr.length / (k + 1)) : Nat) : Int)
          (((t + 1) * (arr.length / (k + 1)) : Nat) : Int)) := by
    apply List.map_congr_left
    intro t ht
    have ht' : t < k := List.mem_range.1 ht
    rw [workerStart_eq hs (by omega), workerEnd_eq hs (by omega), if_neg (by omega)]
  rw [h1, segs_upto]
  simp only [List.map_cons, List.map_nil, List.flatten_cons, List.flatten_nil, List.append_nil]
  rw [workerStart_eq hs (by omega), workerEnd_eq hs (by omega), if_pos rfl]
  rw [← seg_append (by positivity)]
  · exact seg_zero_length arr
  · have := chunk_mul_le arr.length (k + 1) k (by omega)
    exact_mod_cast this

theorem oddSum_flatten (ls : List (List Int)) :
    oddSum ls.flatten = (ls.map oddSum).sum := by
  induction ls with
  | nil => rfl
  | cons l ls ih => simp [oddSum_append, ih]

theorem odds_length_flatten (ls : List (List Int)) :
    (odds ls.flatten).length = (ls.map (fun l => (odds l).length)).sum := by
  induction ls with
  | nil => rfl
  | cons l ls ih => simp [odds_append, ih]

/-! ## The accumulators after all workers have returned -/

theorem WorkerOK.i_of_finished {arr : List Int} {p : Progress} (h : WorkerOK arr p)
    (hfin : p.stage = .finished) : p.i = max p.start p.stop := by
  have h1 := h.start_le
  have h2 := h.range
  have h3 := h.fin hfin
  rcases le_total p.start p.stop with h4 | h4
  · rw [max_eq_right h4]; omega
  · rw [max_eq_left h4]; omega

theorem processed_eq_of_shape {arr : List Int} {d m : Int} {ps : List Progress} {W : Nat}
    (h : AInv arr d m ps) (hsh : Shape arr.length W ps)
    (hfin : ∀ p ∈ ps, p.stage = .finished) :
    processed W arr = (ps.map (fun p => seg arr p.start p.i)).flatten := by
  have h1 : ps.map (fun p => seg arr p.start p.i) =
      (ps.map (fun p => (p.start, p.stop))).map (fun q => seg arr q.1 (max q.1 q.2)) := by
    rw [List.map_map]
    apply List.map_congr_left
    intro p hp
    simp [(h.ok p hp).i_of_finished (hfin p hp)]
  rw [h1, hsh]
  unfold processed
  simp only [List.map_map, Function.comp_def]

/-- Once all workers have returned, the accumulators hold the sequential
reduction of the elements the workers visited. -/
theorem AInv.final_processed {arr : List Int} {d m : Int} {ps : List Progress} {W : Nat}
    (h : AInv arr d m ps) (hsh : Shape arr.length W ps)
    (hfin : ∀ p ∈ ps, p.stage = .finished) :
    (d, m) = getSequential (processed W arr) := by
  rw [processed_eq_of_shape h hsh hfin]
  apply eq_getSequential_of
  · rw [h.sum, oddSum_flatten, List.map_map]
    congr 3
    apply List.map_congr_left
    intro p hp
    simp [Progress.sumDone, hfin p hp]
  · exact h.le
  · intro v hv
    rw [mem_odds, List.mem_flatten] at hv
    obtain ⟨⟨l, hl, hvl⟩, hodd⟩ := hv
    obtain ⟨p, hp, rfl⟩ := List.mem_map.1 hl
    apply h.lb p hp
    simp only [Progress.minDone, List.mem_append]
    left
    exact mem_odds.2 ⟨hvl, hodd⟩
  · rcases h.mem with h1 | ⟨p, hp, hv⟩
    · left; exact h1
    · right
      simp only [Progress.minSeen, hfin p hp] at hv
      simp only [reduceCtorEq, or_self, if_false, List.append_nil] at hv
      rw [mem_odds] at hv
      rw [mem_odds, List.mem_flatten]
      exact ⟨⟨_, List.mem_map.2 ⟨p, hp, rfl⟩, hv.1⟩, hv.2⟩

/-- For an array whose length is representable as `int` the workers visit
exactly the array. -/
theorem processed_eq (W : Nat) (arr : List Int) (hW : 1 ≤ W)
    (hs : (arr.length : Int) ≤ INT_MAX) : processed W arr = arr := by
  unfold processed
  have h1 : (List.range W).map (fun t => seg arr (workerStart arr.length W t)
      (max (workerStart arr.length W t) (workerEnd arr.length W t))) =
      (List.range W).map (fun t =>
        seg arr (workerStart arr.length W t) (workerEnd arr.length W t)) := by
    apply List.map_congr_left
    intro t ht
    rw [max_eq_right (workerStart_le_end hs (List.mem_range.1 ht)).2.1]
  rw [h1, segs_flatten arr W hW hs]

theorem nbJoined_iff (s : NBState) :
    nbJoined s = true ↔ ∀ p ∈ s.workers.map nbView, p.stage = .finished := by
  unfold nbJoined
  simp only [List.all_eq_true, beq_iff_eq, List.mem_map, forall_exists_index, and_imp,
    forall_apply_eq_imp_iff₂]
  constructor
  · intro h w hw
    simp [nbView, h w hw, nbStage]
  · intro h w hw
    have := h w hw
    simp only [nbView] at this
    cases hpc : w.pc <;> simp [hpc, nbStage] at this ⊢

theorem bJoined_iff (s : BState) :
    bJoined s = true ↔ ∀ p ∈ s.workers.map bView, p.stage = .finished := by
  unfold bJoined
  simp only [List.all_eq_true, beq_iff_eq, List.mem_map, forall_exists_index, and_imp,
    forall_apply_eq_imp_iff₂]
  constructor
  · intro h w hw
    simp [bView, h w hw, bStage]
  · intro h w hw
    have := h w hw
    simp only [bView] at this
    cases hpc : w.pc <;> simp [hpc, bStage] at this ⊢

/-- Whatever the schedule, if `getNonBlocking` returns, it returns the
sequential reduction of the elements its workers visit. -/
theorem getNonBlockingW_processed {W : Nat} {arr : List Int} {sched : List (Nat × Bool)}
    {r : Int × Int} (h : getNonBlockingW W arr sched = some r) :
    r = getSequential (processed W arr) := by
  unfold getNonBlockingW at h
  simp only at h
  split_ifs at h with hj
  simp only [Option.some.injEq] at h
  rw [← h]
  exact (NBInv.nb_reach W arr sched).1.final_processed (nb_shape_reach W arr sched)
    ((nbJoined_iff _).1 hj)

/-- Whatever the schedule, if `getBlocking` returns, it returns the sequential
reduction of the elements its workers visit. -/
theorem getBlockingW_processed {W : Nat} {arr : List Int} {sched : List Nat}
    {r : Int × Int} (h : getBlockingW W arr sched = some r) :
    r = getSequential (processed W arr) := by
  unfold getBlockingW at h
  simp only at h
  split_ifs at h with hj
  simp only [Option.some.injEq] at h
  rw [← h]
  exact (BInv.b_reach W arr sched).1.final_processed (b_shape_reach W arr sched)
    ((bJoined_iff _).1 hj)

/-- Whatever the schedule, if `getNonBlocking` returns, it returns the
sequential result (array length representable as `int`). -/
theorem getNonBlockingW_sound {W : Nat} {arr : List Int} (hW : 1 ≤ W)
    (hs : (arr.length : Int) ≤ INT_MAX) {sched : List (Nat × Bool)} {r : Int × Int}
    (h : getNonBlockingW W arr sched = some r) : r = getSequential arr := by
  rw [getNonBlockingW_processed h, processed_eq W arr hW hs]

/-- Whatever the schedule, if `getBlocking` returns, it returns the sequential
result (array length representable as `int`). -/
theorem getBlockingW_sound {W : Nat} {arr : List Int} (hW : 1 ≤ W)
    (hs : (arr.length : Int) ≤ INT_MAX) {sched : List Nat} {r : Int × Int}
    (h : getBlockingW W arr sched = some r) : r = getSequential arr := by
  rw [getBlockingW_processed h, processed_eq W arr hW hs]

/-! ## A worker that runs alone returns -/

theorem readAt_of_lt {arr : List Int} {i : Int} (h0 : 0 ≤ i) (h1 : i < arr.length) :
    ∃ v, readAt arr i = some v := by
  have h2 : i.toNat < arr.length := by omega
  refine ⟨arr[i.toNat], ?_⟩
  simp [readAt, h0, h2]

theorem nbWorkerStep_solo (arr : List Int) (d m : Int) (w : NBWorker)
    (h : NBSolo arr d m w) (hne : w.pc ≠ .finished) :
    NBSolo arr (nbWorkerStep arr true d m w).1 (nbWorkerStep arr true d m w).2.1
        (nbWorkerStep arr true d m w).2.2 ∧
      nbPot (nbWorkerStep arr true d m w).2.2 < nbPot w := by
  obtain ⟨start, stop, i, val, oldVal, newVal, pc⟩ := w
  obtain ⟨h1, h2, h3, h4, h5, h6⟩ := h
  simp only at h1 h2 h3 h4 h5 h6 hne
  cases pc with
  | loopHead =>
    simp only [nbWorkerStep]
    by_cases hi : i < stop
    · rw [if_pos hi]
      obtain ⟨v, hv⟩ := readAt_of_lt h4 (lt_of_lt_of_le hi h5)
      rw [hv]
      simp only []
      split_ifs
      · exact ⟨by simp [NBSolo]; omega, by simp [nbPot, nbRank]⟩
      · exact ⟨by simp [NBSolo]; omega, by simp [nbPot, nbRank]; omega⟩
    · rw [if_neg hi]
      exact ⟨by simp [NBSolo]; omega, by simp [nbPot, nbRank]⟩
  | sumLoad =>
    simp only [nbWorkerStep]
    have := h6 (by simp) (by simp)
    exact ⟨by simp [NBSolo]; omega, by simp [nbPot, nbRank]⟩
  | sumCas =>
    simp only [nbWorkerStep]
    have := h6 (by simp) (by simp)
    have : d = oldVal := (h1 rfl).symm
    simp only [this, Bool.true_and, beq_self_eq_true, if_true]
    exact ⟨by simp [NBSolo]; omega, by simp [nbPot, nbRank]⟩
  | minLoad =>
    simp only [nbWorkerStep]
    have := h6 (by simp) (by simp)
    split_ifs with hc
    · exact ⟨by simp [NBSolo]; omega, by simp [nbPot, nbRank]⟩
    · exact ⟨by simp [NBSolo]; omega, by simp [nbPot, nbRank]; omega⟩
  | minCas =>
    simp only [nbWorkerStep]
    have := h6 (by simp) (by simp)
    have : m = oldVal := (h2 rfl).symm
    simp only [this, Bool.true_and, beq_self_eq_true, if_true]
    exact ⟨by simp [NBSolo]; omega, by simp [nbPot, nbRank]; omega⟩
  | finished => exact absurd rfl hne
  | faulted => exact absurd rfl h3

theorem nbWorkerStep_finished (arr : List Int) (ok : Bool) (d m : Int) (w : NBWorker)
    (h : w.pc = .finished) : nbWorkerStep arr ok d m w = (d, m, w) := by
  unfold nbWorkerStep
  rw [h]

theorem nbPot_eq_zero {w : NBWorker} (h : nbPot w = 0) :
    w.pc = .finished ∨ w.pc = .faulted := by
  unfold nbPot at h
  cases hpc : w.pc <;> simp [hpc, nbRank] at h ⊢

/-- Running thread `t` alone for at least `nbPot` moves makes it return and
leaves the other workers untouched. -/
theorem nb_solo_run (arr : List Int) (t : Nat) (k : Nat) (s : NBState) (w : NBWorker)
    (hw : s.workers[t]? = some w) (hsolo : NBSolo arr s.diffOdd s.minOdd w)
    (hk : nbPot w ≤ k) :
    (∃ w', (nbRun arr s (nbSolo t k)).workers[t]? = some w' ∧ w'.pc = .finished) ∧
      (∀ t2, t2 ≠ t → (nbRun arr s (nbSolo t k)).workers[t2]? = s.workers[t2]?) := by
  induction k generalizing s w with
  | zero =>
    have h0 : nbPot w = 0 := by omega
    rcases nbPot_eq_zero h0 with h | h
    · exact ⟨⟨w, hw, h⟩, fun _ _ => rfl⟩
    · exact absurd h hsolo.2.2.1
  | succ k ih =>
    have hrun : nbRun arr s (nbSolo t (k + 1)) = nbRun arr (nbStep arr s (t, true)) (nbSolo t k) := by
      simp [nbRun, nbSolo, List.replicate_succ]
    rw [hrun]
    have hlt : t < s.workers.length := (List.getElem?_eq_some_iff.1 hw).1
    have hkey : NBSolo arr (nbWorkerStep arr true s.diffOdd s.minOdd w).1
        (nbWorkerStep arr true s.diffOdd s.minOdd w).2.1
        (nbWorkerStep arr true s.diffOdd s.minOdd w).2.2 ∧
        nbPot (nbWorkerStep arr true s.diffOdd s.minOdd w).2.2 ≤ k := by
      by_cases hf : w.pc = .finished
      · rw [nbWorkerStep_finished arr true _ _ w hf]
        refine ⟨hsolo, ?_⟩
        simp [nbPot, hf]
      · obtain ⟨h1, h2⟩ := nbWorkerStep_solo arr s.diffOdd s.minOdd w hsolo hf
        exact ⟨h1, by omega⟩
    obtain ⟨h1, h2⟩ := hkey
    have hw' : (nbStep arr s (t, true)).workers[t]? =
        some (nbWorkerStep arr true s.diffOdd s.minOdd w).2.2 := by
      simp [nbStep, hw, List.getElem?_set, hlt]
    have hsolo' : NBSolo arr (nbStep arr s (t, true)).diffOdd (nbStep arr s (t, true)).minOdd
        (nbWorkerStep arr true s.diffOdd s.minOdd w).2.2 := by
      simpa [nbStep, hw] using h1
    obtain ⟨i1, i2⟩ := ih _ _ hw' hsolo' h2
    refine ⟨i1, ?_⟩
    intro t2 ht2
    rw [i2 t2 ht2]
    simp [nbStep, hw, List.getElem?_set, Ne.symm ht2]

theorem nbInit_getElem? (W : Nat) (arr : List Int) (t : Nat) :
    (nbInit W arr).workers[t]? = if t < W then some (nbWorkerInit arr.length W t) else none := by
  simp only [nbInit, List.getElem?_map]
  by_cases h : t < W
  · simp [h, List.getElem?_range]
  · simp [h, List.getElem?_eq_none]
    omega

theorem nbRun_append (arr : List Int) (s : NBState) (l₁ l₂ : List (Nat × Bool)) :
    nbRun arr s (l₁ ++ l₂) = nbRun arr (nbRun arr s l₁) l₂ := by
  simp [nbRun, List.foldl_append]

theorem nb_serial_upto (W : Nat) (arr : List Int)
    (hb : ∀ t, t < W → 0 ≤ workerStart arr.length W t ∧ workerEnd arr.length W t ≤ arr.length)
    (k : Nat) (hk : 5 * arr.length + 5 ≤ k) (j : Nat) (hj : j ≤ W) :
    (∀ t, t < j → ∃ w, (nbRun arr (nbInit W arr)
        ((List.range j).flatMap (fun t => nbSolo t k))).workers[t]? = some w ∧ w.pc = .finished) ∧
    (∀ t, j ≤ t → (nbRun arr (nbInit W arr)
        ((List.range j).flatMap (fun t => nbSolo t k))).workers[t]? = (nbInit W arr).workers[t]?) := by
  induction j with
  | zero =>
    refine ⟨fun t ht => absurd ht (Nat.not_lt_zero t), fun t _ => ?_⟩
    simp [nbRun]
  | succ j ih =>
    obtain ⟨ih1, ih2⟩ := ih (by omega)
    rw [List.range_succ, List.flatMap_append, nbRun_append]
    simp only [List.flatMap_cons, List.flatMap_nil, List.append_nil]
    have hjW : j < W := by omega
    have hw := ih2 j (le_refl j)
    rw [nbInit_getElem?, if_pos hjW] at hw
    have hv := hb j hjW
    have hsolo : NBSolo arr
        (nbRun arr (nbInit W arr) ((List.range j).flatMap (fun t => nbSolo t k))).diffOdd
        (nbRun arr (nbInit W arr) ((List.range j).flatMap (fun t => nbSolo t k))).minOdd
        (nbWorkerInit arr.length W j) := by
      simp only [NBSolo, nbWorkerInit]
      refine ⟨by simp, by simp, by simp, hv.1, hv.2, by simp⟩
    have hpot : nbPot (nbWorkerInit arr.length W j) ≤ k := by
      simp only [nbPot, nbWorkerInit, nbRank]
      omega
    obtain ⟨r1, r2⟩ := nb_solo_run arr j k _ _ hw hsolo hpot
    refine ⟨?_, ?_⟩
    · intro t ht
      by_cases htj : t = j
      · rw [htj]; exact r1
      · rw [r2 t htj]
        exact ih1 t (by omega)
    · intro t ht
      rw [r2 t (by omega)]
      exact ih2 t (by omega)

/-- The serial schedule lets every worker of `getNonBlocking` return. -/
theorem nb_serial_joined (W : Nat) (arr : List Int)
    (hb : ∀ t, t < W → 0 ≤ workerStart arr.length W t ∧ workerEnd arr.length W t ≤ arr.length)
    (k : Nat) (hk : 5 * arr.length + 5 ≤ k) :
    nbJoined (nbRun arr (nbInit W arr) (nbSerial W k)) = true := by
  obtain ⟨h1, h2⟩ := nb_serial_upto W arr hb k hk W (le_refl W)
  unfold nbJoined
  rw [List.all_eq_true]
  intro w hw
  obtain ⟨t, ht⟩ := List.mem_iff_getElem?.1 hw
  unfold nbSerial at ht
  by_cases htW : t < W
  · obtain ⟨w', hw', hf⟩ := h1 t htW
    rw [hw'] at ht
    simp only [Option.some.injEq] at ht
    rw [← ht, hf]
    rfl
  · rw [h2 t (by omega), nbInit_getElem?, if_neg htW] at ht
    exact absurd ht (by simp)

/-- With the serial schedule `getNonBlocking` returns the sequential result. -/
theorem getNonBlockingW_serial {W : Nat} {arr : List Int} (hW : 1 ≤ W)
    (hs : (arr.length : Int) ≤ INT_MAX) (k : Nat) (hk : 5 * arr.length + 5 ≤ k) :
    getNonBlockingW W arr (nbSerial W k) = some (getSequential arr) := by
  have hj := nb_serial_joined W arr
    (fun t ht => ⟨(workerStart_le_end hs ht).1, (workerStart_le_end hs ht).2.2⟩) k hk
  have h : ∃ r, getNonBlockingW W arr (nbSerial W k) = some r := by
    unfold getNonBlockingW
    simp only [hj, if_true]
    exact ⟨_, rfl⟩
  obtain ⟨r, hr⟩ := h
  rw [hr, getNonBlockingW_sound hW hs hr]

theorem bWorkerStep_solo (arr : List Int) (t : Nat) (d m : Int) (o : Option Nat) (w : BWorker)
    (h : BSolo arr o w) (hne : w.pc ≠ .finished) :
    BSolo arr (bWorkerStep arr t d m o w).2.2.1 (bWorkerStep arr t d m o w).2.2.2 ∧
      bPot (bWorkerStep arr t d m o w).2.2.2 < bPot w := by
  obtain ⟨start, stop, i, val, tmp, pc⟩ := w
  obtain ⟨h1, h3, h4, h5, h6⟩ := h
  simp only at h1 h3 h4 h5 h6 hne
  cases pc with
  | loopHead =>
    simp only [bWorkerStep]
    have ho : o = none := h1 rfl
    by_cases hi : i < stop
    · rw [if_pos hi]
      obtain ⟨v, hv⟩ := readAt_of_lt h4 (lt_of_lt_of_le hi h5)
      rw [hv]
      simp only []
      split_ifs
      · exact ⟨by simp [BSolo, Bpc.inCS, ho]; omega, by simp [bPot, bRank]⟩
      · exact ⟨by simp [BSolo, Bpc.inCS, ho]; omega, by simp [bPot, bRank]; omega⟩
    · rw [if_neg hi]
      exact ⟨by simp [BSolo, Bpc.inCS, ho]; omega, by simp [bPot, bRank]⟩
  | lock =>
    have ho : o = none := h1 rfl
    have := h6 (by simp) (by simp)
    subst ho
    simp only [bWorkerStep]
    exact ⟨by simp [BSolo, Bpc.inCS]; omega, by simp [bPot, bRank]⟩
  | sumRead =>
    have := h6 (by simp) (by simp)
    simp only [bWorkerStep]
    exact ⟨by simp [BSolo, Bpc.inCS]; omega, by simp [bPot, bRank]⟩
  | sumWrite =>
    have := h6 (by simp) (by simp)
    simp only [bWorkerStep]
    exact ⟨by simp [BSolo, Bpc.inCS]; omega, by simp [bPot, bRank]⟩
  | minRead =>
    have := h6 (by simp) (by simp)
    simp only [bWorkerStep]
    exact ⟨by simp [BSolo, Bpc.inCS]; omega, by simp [bPot, bRank]⟩
  | minWrite =>
    have := h6 (by simp) (by simp)
    simp only [bWorkerStep]
    exact ⟨by simp [BSolo, Bpc.inCS]; omega, by simp [bPot, bRank]⟩
  | unlock =>
    have := h6 (by simp) (by simp)
    simp only [bWorkerStep]
    exact ⟨by simp [BSolo, Bpc.inCS]; omega, by simp [bPot, bRank]; omega⟩
  | finished => exact absurd rfl hne
  | faulted => exact absurd rfl h3

theorem bWorkerStep_finished (arr : List Int) (t : Nat) (d m : Int) (o : Option Nat)
    (w : BWorker) (h : w.pc = .finished) : bWorkerStep arr t d m o w = (d, m, o, w) := by
  unfold bWorkerStep
  rw [h]

theorem bPot_eq_zero {w : BWorker} (h : bPot w = 0) :
    w.pc = .finished ∨ w.pc = .faulted := by
  unfold bPot at h
  cases hpc : w.pc <;> simp [hpc, bRank] at h ⊢

/-- Running thread `t` alone for at least `bPot` moves makes it return with the
mutex released and leaves the other workers untouched. -/
theorem b_solo_run (arr : List Int) (t : Nat) (k : Nat) (s : BState) (w : BWorker)
    (hw : s.workers[t]? = some w) (hsolo : BSolo arr s.owner w) (hk : bPot w ≤ k) :
    (∃ w', (bRun arr s (List.replicate k t)).workers[t]? = some w' ∧ w'.pc = .finished) ∧
      (bRun arr s (List.replicate k t)).owner = none ∧
      (∀ t2, t2 ≠ t → (bRun arr s (List.replicate k t)).workers[t2]? = s.workers[t2]?) := by
  induction k generalizing s w with
  | zero =>
    have h0 : bPot w = 0 := by omega
    rcases bPot_eq_zero h0 with h | h
    · refine ⟨⟨w, hw, h⟩, ?_, fun _ _ => rfl⟩
      exact hsolo.1 (by rw [h]; rfl)
    · exact absurd h hsolo.2.1
  | succ k ih =>
    have hrun : bRun arr s (List.replicate (k + 1) t) =
        bRun arr (bStep arr s t) (List.replicate k t) := by
      simp [bRun, List.replicate_succ]
    rw [hrun]
    have hlt : t < s.workers.length := (List.getElem?_eq_some_iff.1 hw).1
    have hkey : BSolo arr (bWorkerStep arr t s.diffOdd s.minOdd s.owner w).2.2.1
        (bWorkerStep arr t s.diffOdd s.minOdd s.owner w).2.2.2 ∧
        bPot (bWorkerStep arr t s.diffOdd s.minOdd s.owner w).2.2.2 ≤ k := by
      by_cases hf : w.pc = .finished
      · rw [bWorkerStep_finished arr t _ _ _ w hf]
        refine ⟨hsolo, ?_⟩
        simp [bPot, hf]
      · obtain ⟨h1, h2⟩ := bWorkerStep_solo arr t s.diffOdd s.minOdd s.owner w hsolo hf
        exact ⟨h1, by omega⟩
    obtain ⟨h1, h2⟩ := hkey
    have hw' : (bStep arr s t).workers[t]? =
        some (bWorkerStep arr t s.diffOdd s.minOdd s.owner w).2.2.2 := by
      simp [bStep, hw, List.getElem?_set, hlt]
    have hsolo' : BSolo arr (bStep arr s t).owner
        (bWorkerStep arr t s.diffOdd s.minOdd s.owner w).2.2.2 := by
      simpa [bStep, hw] using h1
    obtain ⟨i1, i2, i3⟩ := ih _ _ hw' hsolo' h2
    refine ⟨i1, i2, ?_⟩
    intro t2 ht2
    rw [i3 t2 ht2]
    simp [bStep, hw, List.getElem?_set, Ne.symm ht2]

theorem bInit_getElem? (W : Nat) (arr : List Int) (t : Nat) :
    (bInit W arr).workers[t]? = if t < W then some (bWorkerInit arr.length W t) else none := by
  simp only [bInit, List.getElem?_map]
  by_cases h : t < W
  · simp [h, List.getElem?_range]
  · simp [h, List.getElem?_eq_none]
    omega

theorem bRun_append (arr : List Int) (s : BState) (l₁ l₂ : List Nat) :
    bRun arr s (l₁ ++ l₂) = bRun arr (bRun arr s l₁) l₂ := by
  simp [bRun, List.foldl_append]

theorem b_serial_upto (W : Nat) (arr : List Int)
    (hb : ∀ t, t < W → 0 ≤ workerStart arr.length W t ∧ workerEnd arr.length W t ≤ arr.length)
    (k : Nat) (hk : 7 * arr.length + 7 ≤ k) (j : Nat) (hj : j ≤ W) :
    (∀ t, t < j → ∃ w, (bRun arr (bInit W arr)
        ((List.range j).flatMap (fun t => List.replicate k t))).workers[t]? = some w ∧
          w.pc = .finished) ∧
    (bRun arr (bInit W arr) ((List.range j).flatMap (fun t => List.replicate k t))).owner = none ∧
    (∀ t, j ≤ t → (bRun arr (bInit W arr)
        ((List.range j).flatMap (fun t => List.replicate k t))).workers[t]? =
          (bInit W arr).workers[t]?) := by
  induction j with
  | zero =>
    refine ⟨fun t ht => absurd ht (Nat.not_lt_zero t), ?_, fun t _ => ?_⟩
    · simp [bRun, bInit]
    · simp [bRun]
  | succ j ih =>
    obtain ⟨ih1, ih0, ih2⟩ := ih (by omega)
    rw [List.range_succ, List.flatMap_append, bRun_append]
    simp only [List.flatMap_cons, List.flatMap_nil, List.append_nil]
    have hjW : j < W := by omega
    have hw := ih2 j (le_refl j)
    rw [bInit_getElem?, if_pos hjW] at hw
    have hv := hb j hjW
    have hsolo : BSolo arr
        (bRun arr (bInit W arr) ((List.range j).flatMap (fun t => List.replicate k t))).owner
        (bWorkerInit arr.length W j) := by
      rw [ih0]
      simp only [BSolo, bWorkerInit]
      refine ⟨by simp, by simp, hv.1, hv.2, by simp⟩
    have hpot : bPot (bWorkerInit arr.length W j) ≤ k := by
      simp only [bPot, bWorkerInit, bRank]
      omega
    obtain ⟨r1, r0, r2⟩ := b_solo_run arr j k _ _ hw hsolo hpot
    refine ⟨?_, r0, ?_⟩
    · intro t ht
      by_cases htj : t = j
      · rw [htj]; exact r1
      · rw [r2 t htj]
        exact ih1 t (by omega)
    · intro t ht
      rw [r2 t (by omega)]
      exact ih2 t (by omega)

/-- The serial schedule lets every worker of `getBlocking` return. -/
theorem b_serial_joined (W : Nat) (arr : List Int)
    (hb : ∀ t, t < W → 0 ≤ workerStart arr.length W t ∧ workerEnd arr.length W t ≤ arr.length)
    (k : Nat) (hk : 7 * arr.length + 7 ≤ k) :
    bJoined (bRun arr (bInit W arr) (bSerial W k)) = true := by
  obtain ⟨h1, _, h2⟩ := b_serial_upto W arr hb k hk W (le_refl W)
  unfold bJoined
  rw [List.all_eq_true]
  intro w hw
  obtain ⟨t, ht⟩ := List.mem_iff_getElem?.1 hw
  unfold bSerial at ht
  by_cases htW : t < W
  · obtain ⟨w', hw', hf⟩ := h1 t htW
    rw [hw'] at ht
    simp only [Option.some.injEq] at ht
    rw [← ht, hf]
    rfl
  · rw [h2 t (by omega), bInit_getElem?, if_neg htW] at ht
    exact absurd ht (by simp)

/-- With the serial schedule `getBlocking` returns the sequential result. -/
theorem getBlockingW_serial {W : Nat} {arr : List Int} (hW : 1 ≤ W)
    (hs : (arr.length : Int) ≤ INT_MAX) (k : Nat) (hk : 7 * arr.length + 7 ≤ k) :
    getBlockingW W arr (bSerial W k) = some (getSequential arr) := by
  have hj := b_serial_joined W arr
    (fun t ht => ⟨(workerStart_le_end hs ht).1, (workerStart_le_end hs ht).2.2⟩) k hk
  have h : ∃ r, getBlockingW W arr (bSerial W k) = some r := by
    unfold getBlockingW
    simp only [hj, if_true]
    exact ⟨_, rfl⟩
  obtain ⟨r, hr⟩ := h
  rw [hr, getBlockingW_sound hW hs hr]

/-! ## Arrays without odd elements -/

theorem odds_eq_nil_of_even {l : List Int} (h : ∀ v ∈ l, isOddVal v = false) : odds l = [] := by
  unfold odds
  rw [List.filter_eq_nil_iff]
  intro v hv
  simp [h v hv]

theorem getSequential_of_even {l : List Int} (h : ∀ v ∈ l, isOddVal v = false) :
    getSequential l = (0, INT_MAX) := by
  rw [getSequential_eq, odds_eq_nil_of_even h]
  rfl

theorem mem_processed {W : Nat} {arr : List Int} {v : Int} (h : v ∈ processed W arr) :
    ∃ t, t < W ∧ v ∈ seg arr (workerStart arr.length W t)
      (max (workerStart arr.length W t) (workerEnd arr.length W t)) := by
  unfold processed at h
  rw [List.mem_flatten] at h
  obtain ⟨l, hl, hv⟩ := h
  obtain ⟨t, ht, rfl⟩ := List.mem_map.1 hl
  exact ⟨t, List.mem_range.1 ht, hv⟩

theorem mem_of_mem_seg {arr : List Int} {a b v : Int} (h : v ∈ seg arr a b) : v ∈ arr :=
  List.mem_of_mem_take (seg_mem_take h)

theorem mem_of_mem_processed {W : Nat} {arr : List Int} {v : Int} (h : v ∈ processed W arr) :
    v ∈ arr := by
  obtain ⟨t, _, hv⟩ := mem_processed h
  exact mem_of_mem_seg hv

/-! ## The partition of an array of `2^31` elements -/

theorem bigArray_length : bigArray.length = 2147483648 := by
  unfold bigArray
  rw [List.length_append, List.length_replicate]
  rfl

theorem big_ranges :
    workerStart 2147483648 4 0 = 0 ∧ workerEnd 2147483648 4 0 = 536870912 ∧
    workerStart 2147483648 4 1 = 536870912 ∧ workerEnd 2147483648 4 1 = 1073741824 ∧
    workerStart 2147483648 4 2 = 1073741824 ∧ workerEnd 2147483648 4 2 = 1610612736 ∧
    workerStart 2147483648 4 3 = 1610612736 ∧ workerEnd 2147483648 4 3 = -2147483648 := by
  decide

theorem big_bounds (t : Nat) (ht : t < 4) :
    0 ≤ workerStart bigArray.length 4 t ∧
      workerEnd bigArray.length 4 t ≤ (bigArray.length : Int) := by
  rw [bigArray_length]
  obtain ⟨h0, h1, h2, h3, h4, h5, h6, h7⟩ := big_ranges
  interval_cases t
  · rw [h0, h1]; decide
  · rw [h2, h3]; decide
  · rw [h4, h5]; decide
  · rw [h6, h7]; decide

theorem processed_bigArray_even : ∀ v ∈ processed 4 bigArray, isOddVal v = false := by
  intro v hv
  obtain ⟨t, ht, hv⟩ := mem_processed hv
  rw [bigArray_length] at hv
  obtain ⟨h0, h1, h2, h3, h4, h5, h6, h7⟩ := big_ranges
  have key : ∀ a b : Int, b.toNat ≤ 2147483647 → v ∈ seg bigArray a b → isOddVal v = false := by
    intro a b hb hv
    have h := seg_mem_take hv
    unfold bigArray at h
    rw [List.take_append_of_le_length (by rw [List.length_replicate]; exact hb)] at h
    have := List.mem_of_mem_take h
    rw [List.mem_replicate] at this
    rw [this.2]
    decide
  interval_cases t
  · rw [h0, h1] at hv; exact key _ _ (by decide) hv
  · rw [h2, h3] at hv; exact key _ _ (by decide) hv
  · rw [h4, h5] at hv; exact key _ _ (by decide) hv
  · rw [h6, h7] at hv; exact key _ _ (by decide) hv

theorem getSequential_processed_bigArray :
    getSequential (processed 4 bigArray) = (0, INT_MAX) :=
  getSequential_of_even processed_bigArray_even

theorem getSequential_bigArray : getSequential bigArray = (-1, 1) := by
  unfold getSequential bigArray
  rw [List.foldl_append]
  have h : List.foldl seqUpdate (0, INT_MAX) (List.replicate 2147483647 0) = (0, INT_MAX) := by
    have := @getSequential_of_even (List.replicate 2147483647 0) (by
      intro v hv
      rw [List.mem_replicate] at hv
      rw [hv.2]
      decide)
    exact this
  rw [h]
  decide

/-- On the array of `2^31` elements the serial schedule lets `getBlocking`
return, and it returns `(0, INT_MAX)`. -/
theorem getBlocking_bigArray :
    getBlocking bigArray (bSerial 4 (7 * bigArray.length + 7)) = some (0, INT_MAX) := by
  have hj := b_serial_joined 4 bigArray big_bounds (7 * bigArray.length + 7) (le_refl _)
  have h : ∃ r, getBlockingW 4 bigArray (bSerial 4 (7 * bigArray.length + 7)) = some r := by
    unfold getBlockingW
    simp only [hj, if_true]
    exact ⟨_, rfl⟩
  obtain ⟨r, hr⟩ := h
  unfold getBlocking threadCount
  rw [hr, getBlockingW_processed hr, getSequential_processed_bigArray]

/-- On the array of `2^31` elements the serial schedule lets `getNonBlocking`
return, and it returns `(0, INT_MAX)`. -/
theorem getNonBlocking_bigArray :
    getNonBlocking bigArray (nbSerial 4 (5 * bigArray.length + 5)) = some (0, INT_MAX) := by
  have hj := nb_serial_joined 4 bigArray big_bounds (5 * bigArray.length + 5) (le_refl _)
  have h : ∃ r, getNonBlockingW 4 bigArray (nbSerial 4 (5 * bigArray.length + 5)) = some r := by
    unfold getNonBlockingW
    simp only [hj, if_true]
    exact ⟨_, rfl⟩
  obtain ⟨r, hr⟩ := h
  unfold getNonBlocking threadCount
  rw [hr, getNonBlockingW_processed hr, getSequential_processed_bigArray]

/-! ## An array of `2863311532` elements: the last worker reads out of bounds -/

theorem bigEvenArray_length : bigEvenArray.length = 2863311532 := by
  unfold bigEvenArray
  rw [List.length_replicate]

theorem bigEven_range :
    workerStart 2863311532 4 3 = -2147483647 ∧ workerEnd 2863311532 4 3 = -1431655764 := by
  decide

theorem readAt_neg (arr : List Int) {i : Int} (h : i < 0) : readAt arr i = none := by
  unfold readAt
  rw [if_neg (by omega)]

theorem nbWorkerStep_stuck (arr : List Int) (ok : Bool) (d m : Int) (w : NBWorker)
    (h : (w.pc = .loopHead ∨ w.pc = .faulted) ∧ w.i < 0 ∧ w.i < w.stop) :
    ((nbWorkerStep arr ok d m w).2.2.pc = .loopHead ∨
        (nbWorkerStep arr ok d m w).2.2.pc = .faulted) ∧
      (nbWorkerStep arr ok d m w).2.2.i < 0 ∧
      (nbWorkerStep arr ok d m w).2.2.i < (nbWorkerStep arr ok d m w).2.2.stop := by
  obtain ⟨start, stop, i, val, oldVal, newVal, pc⟩ := w
  obtain ⟨h1, h2, h3⟩ := h
  simp only at h1 h2 h3
  rcases h1 with h1 | h1
  · subst h1
    simp only [nbWorkerStep, if_pos h3, readAt_neg arr h2]
    exact ⟨by simp, h2, h3⟩
  · subst h1
    simp only [nbWorkerStep]
    exact ⟨by simp, h2, h3⟩

theorem nb_stuck_run (arr : List Int) (t : Nat) (sched : List (Nat × Bool)) (s : NBState)
    (h : ∃ w, s.workers[t]? = some w ∧
      (w.pc = .loopHead ∨ w.pc = .faulted) ∧ w.i < 0 ∧ w.i < w.stop) :
    ∃ w, (nbRun arr s sched).workers[t]? = some w ∧
      (w.pc = .loopHead ∨ w.pc = .faulted) ∧ w.i < 0 ∧ w.i < w.stop := by
  unfold nbRun
  induction sched generalizing s with
  | nil => exact h
  | cons c cs ih =>
    apply ih
    obtain ⟨w, hw, hst⟩ := h
    unfold nbStep
    cases hc : s.workers[c.1]? with
    | none => exact ⟨w, hw, hst⟩
    | some w2 =>
      have hlt : c.1 < s.workers.length := (List.getElem?_eq_some_iff.1 hc).1
      by_cases hct : c.1 = t
      · rw [hct] at hc hlt
        rw [hw] at hc
        simp only [Option.some.injEq] at hc
        subst hc
        refine ⟨_, ?_, nbWorkerStep_stuck arr c.2 s.diffOdd s.minOdd w hst⟩
        simp [List.getElem?_set, hct, hlt]
      · refine ⟨w, ?_, hst⟩
        simp [List.getElem?_set, hct, hw]

/-- On the array of `2863311532` zeros `getNonBlocking` never returns: its last
worker is given the range `[-2147483647, -1431655764)`. -/
theorem getNonBlocking_bigEvenArray (sched : List (Nat × Bool)) :
    getNonBlocking bigEvenArray sched = none := by
  have h0 : ∃ w, (nbInit 4 bigEvenArray).workers[3]? = some w ∧
      (w.pc = .loopHead ∨ w.pc = .faulted) ∧ w.i < 0 ∧ w.i < w.stop := by
    refine ⟨nbWorkerInit bigEvenArray.length 4 3, ?_, ?_⟩
    · rw [nbInit_getElem?, if_pos (by decide)]
    · rw [bigEvenArray_length]
      simp only [nbWorkerInit, bigEven_range.1, bigEven_range.2]
      decide
  obtain ⟨w, hw, hpc, _, _⟩ := nb_stuck_run bigEvenArray 3 sched _ h0
  unfold getNonBlocking getNonBlockingW threadCount
  simp only
  rw [if_neg]
  intro hj
  unfold nbJoined at hj
  rw [List.all_eq_true] at hj
  have := hj w (mem_of_getElem?_eq_some hw)
  rcases hpc with hpc | hpc <;> simp [hpc] at this

/-! ## The compare-and-swap loops of `getNonBlocking` -/

theorem nb_reach_local (W : Nat) (arr : List Int) (sched : List (Nat × Bool)) (t : Nat)
    (w : NBWorker) (hw : (nbRun arr (nbInit W arr) sched).workers[t]? = some w) : NBLocal w :=
  (NBInv.nb_reach W arr sched).2 w (mem_of_getElem?_eq_some hw)

theorem nbStep_eq (arr : List Int) (s : NBState) (t : Nat) (ok : Bool) (w : NBWorker)
    (hw : s.workers[t]? = some w) :
    nbStep arr s (t, ok) =
      { diffOdd := (nbWorkerStep arr ok s.diffOdd s.minOdd w).1,
        minOdd := (nbWorkerStep arr ok s.diffOdd s.minOdd w).2.1,
        workers := s.workers.set t (nbWorkerStep arr ok s.diffOdd s.minOdd w).2.2 } := by
  simp [nbStep, hw]

theorem nbWorkerStep_sumLoad (arr : List Int) (ok : Bool) (d m : Int) (w : NBWorker)
    (h : w.pc = .sumLoad) :
    nbWorkerStep arr ok d m w =
      (d, m, { w with oldVal := d, newVal := wrapInt (d - w.val), pc := .sumCas }) := by
  unfold nbWorkerStep
  rw [h]

theorem nbWorkerStep_sumCas (arr : List Int) (ok : Bool) (d m : Int) (w : NBWorker)
    (hl : NBLocal w) (h : w.pc = .sumCas) :
    nbWorkerStep arr ok d m w =
      if (ok && d == w.oldVal) = true then (wrapInt (d - w.val), m, { w with pc := .minLoad })
      else (d, m, { w with oldVal := d, pc := .sumLoad }) := by
  have hn := hl.1 h
  unfold nbWorkerStep
  rw [h]
  simp only
  by_cases hc : (ok && d == w.oldVal) = true
  · rw [if_pos hc, if_pos hc, hn]
    simp only [Bool.and_eq_true, beq_iff_eq] at hc
    rw [hc.2]
  · rw [if_neg hc, if_neg hc]

theorem nbWorkerStep_minLoad (arr : List Int) (ok : Bool) (d m : Int) (w : NBWorker)
    (h : w.pc = .minLoad) :
    nbWorkerStep arr ok d m w =
      if min m w.val = m then
        (d, m, { w with oldVal := m, newVal := m, i := w.i + 1, pc := .loopHead })
      else (d, m, { w with oldVal := m, newVal := w.val, pc := .minCas }) := by
  unfold nbWorkerStep
  rw [h]
  simp only
  by_cases hc : w.val < m
  · rw [if_pos hc, if_neg (by rw [min_eq_left_iff]; omega), min_eq_right (le_of_lt hc)]
  · rw [if_neg hc, if_pos (by rw [min_eq_left_iff]; omega), min_eq_left (not_lt.1 hc)]

theorem nbWorkerStep_minCas (arr : List Int) (ok : Bool) (d m : Int) (w : NBWorker)
    (hl : NBLocal w) (h : w.pc = .minCas) :
    nbWorkerStep arr ok d m w =
      if (ok && m == w.oldVal) = true then
        (d, w.val, { w with i := w.i + 1, pc := .loopHead })
      else (d, m, { w with oldVal := m, pc := .minLoad }) := by
  obtain ⟨hlt, hn⟩ := hl.2 h
  unfold nbWorkerStep
  rw [h]
  simp only
  by_cases hc : (ok && m == w.oldVal) = true
  · rw [if_pos hc, if_pos hc, hn, min_eq_right (le_of_lt hlt)]
  · rw [if_neg hc, if_neg hc]

theorem nbStep_minOdd_le {arr : List Int} {s : NBState} (h : NBInv arr s) (c : Nat × Bool) :
    (nbStep arr s c).minOdd ≤ s.minOdd := by
  unfold nbStep
  cases hw : s.workers[c.1]? with
  | none => exact le_refl _
  | some w =>
    exact (nbWorkerStep_move arr c.2 s.diffOdd s.minOdd w
      (h.2 w (mem_of_getElem?_eq_some hw))).1.min_le

theorem nbRun_minOdd_le {arr : List Int} {s : NBState} (h : NBInv arr s)
    (sched : List (Nat × Bool)) : (nbRun arr s sched).minOdd ≤ s.minOdd := by
  unfold nbRun
  induction sched generalizing s with
  | nil => exact le_refl _
  | cons c cs ih => exact le_trans (ih (h.nb_step c)) (nbStep_minOdd_le h c)

/-- When a worker leaves the minimum loop, the shared minimum is at most its
element. -/
theorem nbStep_minOdd_le_val {arr : List Int} {s : NBState} (h : NBInv arr s) (t : Nat)
    (ok : Bool) (w : NBWorker) (hw : s.workers[t]? = some w)
    (hpc : w.pc = .minLoad ∨ w.pc = .minCas)
    (hexit : (nbWorkerStep arr ok s.diffOdd s.minOdd w).2.2.pc = .loopHead) :
    (nbStep arr s (t, ok)).minOdd ≤ w.val := by
  have hl := h.2 w (mem_of_getElem?_eq_some hw)
  rw [nbStep_eq arr s t ok w hw]
  simp only
  rcases hpc with hpc | hpc
  · rw [nbWorkerStep_minLoad arr ok _ _ w hpc] at hexit ⊢
    by_cases hc : min s.minOdd w.val = s.minOdd
    · rw [if_pos hc]
      exact min_eq_left_iff.1 hc
    · rw [if_neg hc] at hexit
      simp at hexit
  · rw [nbWorkerStep_minCas arr ok _ _ w hl hpc] at hexit ⊢
    by_cases hc : (ok && s.minOdd == w.oldVal) = true
    · rw [if_pos hc]
    · rw [if_neg hc] at hexit
      simp at hexit

/-! ## Counting the successful compare-and-swaps on the sum -/

theorem sumDone_nbView (arr : List Int) (w : NBWorker) :
    (nbView w).sumDone arr = (nbSumCompleted arr w).sum := by
  unfold Progress.sumDone nbSumCompleted nbView
  cases hpc : w.pc <;> simp [nbStage, oddSum]

theorem cntDone_nbView (arr : List Int) (w : NBWorker) :
    (nbView w).cntDone arr = (nbSumCompleted arr w).length := by
  unfold Progress.cntDone nbSumCompleted nbView
  cases hpc : w.pc <;> simp [nbStage]

theorem sum_flatten_eq (ls : List (List Int)) : ls.flatten.sum = (ls.map List.sum).sum := by
  induction ls with
  | nil => rfl
  | cons l ls ih => simp [ih]

theorem length_flatten_eq (ls : List (List Int)) :
    ls.flatten.length = (ls.map List.length).sum := by
  induction ls with
  | nil => rfl
  | cons l ls ih => simp [ih]

/-- In every state of `getNonBlocking` that satisfies the invariant, the shared
sum is the wrapped negated sum of the elements whose sum update is complete. -/
theorem NBInv.diffOdd_eq {arr : List Int} {s : NBState} (h : NBInv arr s) :
    s.diffOdd = wrapInt (-((s.workers.map (nbSumCompleted arr)).flatten.sum)) := by
  rw [h.1.sum, sum_flatten_eq, List.map_map, List.map_map]
  congr 3
  apply List.map_congr_left
  intro w _
  exact sumDone_nbView arr w

theorem nbWorkerStep_cas_iff (arr : List Int) (ok : Bool) (d m : Int) (w : NBWorker) :
    ((nbView w).stage = .pendingSum ∧
        (nbView (nbWorkerStep arr ok d m w).2.2).stage = .pendingMin) ↔
      (w.pc == .sumCas && (ok && d == w.oldVal)) = true := by
  obtain ⟨start, stop, i, val, oldVal, newVal, pc⟩ := w
  cases pc with
  | loopHead => simp [nbView, nbStage]
  | sumLoad => simp [nbView, nbStage, nbWorkerStep]
  | sumCas =>
    simp only [nbView, nbStage, nbWorkerStep, true_and, beq_self_eq_true, Bool.true_and]
    by_cases hc : (ok && d == oldVal) = true
    · simp [hc, nbStage]
    · simp [hc, nbStage]
  | minLoad => simp [nbView, nbStage]
  | minCas => simp [nbView, nbStage]
  | finished => simp [nbView, nbStage]
  | faulted => simp [nbView, nbStage]

theorem nb_count_step {arr : List Int} {s : NBState} (h : NBInv arr s) (c : Nat × Bool) :
    ((nbStep arr s c).workers.map (nbSumCompleted arr)).flatten.length =
      (s.workers.map (nbSumCompleted arr)).flatten.length +
        (if nbSumCasOk s c then 1 else 0) := by
  rw [length_flatten_eq, length_flatten_eq, List.map_map, List.map_map]
  unfold nbStep nbSumCasOk
  cases hw : s.workers[c.1]? with
  | none => simp
  | some w =>
    simp only
    have hwm := mem_of_getElem?_eq_some hw
    have hmove := (nbWorkerStep_move arr c.2 s.diffOdd s.minOdd w (h.2 w hwm)).1
    have hok : WorkerOK arr (nbView w) := h.1.ok _ (List.mem_map.2 ⟨w, hwm, rfl⟩)
    have hcnt := hmove.cntDone_eq hok
    rw [cntDone_nbView, cntDone_nbView] at hcnt
    have hset := sum_map_set_nat (List.length ∘ nbSumCompleted arr) s.workers c.1 w
      (nbWorkerStep arr c.2 s.diffOdd s.minOdd w).2.2 hw
    simp only [Function.comp] at hset hcnt ⊢
    have hiff := nbWorkerStep_cas_iff arr c.2 s.diffOdd s.minOdd w
    by_cases hc : (w.pc == .sumCas && (c.2 && s.diffOdd == w.oldVal)) = true
    · rw [if_pos (hiff.2 hc)] at hcnt
      rw [if_pos hc]
      omega
    · rw [if_neg (fun hh => hc (hiff.1 hh))] at hcnt
      rw [if_neg hc]
      omega

/-- The number of successful compare-and-swaps on the sum along a schedule is
the number of elements whose sum update got completed. -/
theorem nb_count_run {arr : List Int} {s : NBState} (h : NBInv arr s)
    (sched : List (Nat × Bool)) :
    ((nbRun arr s sched).workers.map (nbSumCompleted arr)).flatten.length =
      (s.workers.map (nbSumCompleted arr)).flatten.length + nbSumCasCount arr s sched := by
  induction sched generalizing s with
  | nil => simp [nbRun, nbSumCasCount]
  | cons c cs ih =>
    have h1 := ih (h.nb_step c)
    have h2 := nb_count_step h c
    simp only [nbRun, List.foldl_cons, nbSumCasCount] at h1 ⊢
    omega

theorem nbSumCompleted_init (arr : List Int) (size W t : Nat) :
    nbSumCompleted arr (nbWorkerInit size W t) = [] := by
  unfold nbSumCompleted
  have h1 : (nbWorkerInit size W t).i = (nbWorkerInit size W t).start := rfl
  have h2 : (nbWorkerInit size W t).pc = .loopHead := rfl
  rw [h1, seg_self, h2]
  rfl

theorem nbInit_completed (W : Nat) (arr : List Int) :
    ((nbInit W arr).workers.map (nbSumCompleted arr)).flatten = [] := by
  rw [List.flatten_eq_nil_iff]
  intro l hl
  rw [List.mem_map] at hl
  obtain ⟨w, hw, rfl⟩ := hl
  unfold nbInit at hw
  rw [List.mem_map] at hw
  obtain ⟨t, _, rfl⟩ := hw
  exact nbSumCompleted_init arr _ _ _

theorem odds_flatten (ls : List (List Int)) : odds ls.flatten = (ls.map odds).flatten := by
  induction ls with
  | nil => rfl
  | cons l ls ih => simp [odds_append, ih]

/-- After all workers of `getNonBlocking` have returned, the elements whose sum
update is complete are the odd elements the workers visited. -/
theorem nb_completed_joined (W : Nat) (arr : List Int) (sched : List (Nat × Bool))
    (hj : nbJoined (nbRun arr (nbInit W arr) sched) = true) :
    ((nbRun arr (nbInit W arr) sched).workers.map (nbSumCompleted arr)).flatten =
      odds (processed W arr) := by
  have hfin := (nbJoined_iff _).1 hj
  rw [processed_eq_of_shape (NBInv.nb_reach W arr sched).1 (nb_shape_reach W arr sched) hfin,
    odds_flatten, List.map_map, List.map_map]
  congr 1
  apply List.map_congr_left
  intro w hw
  have := hfin (nbView w) (List.mem_map.2 ⟨w, hw, rfl⟩)
  simp only [nbView] at this
  cases hpc : w.pc <;> simp [hpc, nbStage] at this
  simp [nbSumCompleted, hpc, nbView]

/-! ## Sums of bounded elements -/

theorem sum_bound (l : List Int) (h : ∀ v ∈ l, -10000 ≤ v ∧ v ≤ 10000) :
    -(10000 * (l.length : Int)) ≤ l.sum ∧ l.sum ≤ 10000 * (l.length : Int) := by
  induction l with
  | nil => simp
  | cons x l ih =>
    have hx := h x (List.mem_cons_self _ _)
    have := ih (fun v hv => h v (List.mem_cons_of_mem _ hv))
    simp only [List.sum_cons, List.length_cons]
    push_cast
    omega

theorem odds_length_le (l : List Int) : (odds l).length ≤ l.length :=
  List.length_filter_le _ _

theorem odds_bounded {l : List Int} (h : ∀ v ∈ l, -10000 ≤ v ∧ v ≤ 10000) :
    ∀ v ∈ odds l, -10000 ≤ v ∧ v ≤ 10000 :=
  fun v hv => h v (mem_odds.1 hv).1

/-- A sum of at most `214748` elements of `[-10000, 10000]` is an `int`. -/
theorem isInt_neg_sum {P : List Int} {n : Nat} (hP : ∀ v ∈ P, -10000 ≤ v ∧ v ≤ 10000)
    (hlen : P.length ≤ n) (hn : (n : Int) ≤ 214748) : IsInt (-P.sum) := by
  have h := sum_bound P hP
  have h2 : (P.length : Int) ≤ n := by exact_mod_cast hlen
  unfold IsInt INT_MIN INT_MAX
  omega

/-- Applying the updates for the elements of `P` in the listed order never
wraps, whatever sub-collection `P` of the odd elements is taken in whatever order. -/
theorem foldl_applyOdd_exact {arr P : List Int} (hN : (arr.length : Int) ≤ 214748)
    (hB : ∀ v ∈ arr, -10000 ≤ v ∧ v ≤ 10000) (hP : P.Subperm (odds arr)) :
    (P.foldl applyOdd (0, INT_MAX)).1 = -P.sum ∧ IsInt (-P.sum) := by
  have hPb : ∀ v ∈ P, -10000 ≤ v ∧ v ≤ 10000 :=
    fun v hv => odds_bounded hB v (hP.subset hv)
  have hlen : P.length ≤ arr.length := le_trans hP.length_le (odds_length_le arr)
  have hI := isInt_neg_sum hPb hlen hN
  refine ⟨?_, hI⟩
  rw [foldl_applyOdd_fst _ _ (by decide)]
  simp only [zero_sub]
  exact wrapInt_of_isInt hI

/-! ## How many elements the workers can have touched -/

theorem seg_mid {arr : List Int} {p : Progress} (h : WorkerOK arr p)
    (hmid : p.stage = .pendingSum ∨ p.stage = .pendingMin ∨ p.stage = .applied) :
    seg arr p.start p.stop = seg arr p.start p.i ++ [p.val] ++ seg arr (p.i + 1) p.stop := by
  obtain ⟨h0, h1, h2, _⟩ := h.mid hmid
  rw [← seg_succ h0 h.start_le h2]
  exact seg_append (by have := h.start_le; omega) (by omega)

theorem WorkerOK.touched_le {arr : List Int} {p : Progress} (h : WorkerOK arr p)
    (hle : p.start ≤ p.stop) :
    p.cntDone arr + (if p.stage = .pendingSum then 1 else 0) ≤
      (odds (seg arr p.start p.stop)).length := by
  by_cases hmid : p.stage = .pendingSum ∨ p.stage = .pendingMin ∨ p.stage = .applied
  · obtain ⟨h0, h1, h2, h3⟩ := h.mid hmid
    rw [seg_mid h hmid, odds_append, odds_append, List.length_append, List.length_append]
    have hv : (odds [p.val]).length = 1 := by simp [odds, h3]
    rw [hv]
    unfold Progress.cntDone
    rcases hmid with hm | hm | hm <;> simp [hm]
  · have hi : p.i ≤ p.stop := by
      rcases h.range with h1 | h1
      · omega
      · exact h1.2
    rw [seg_append h.start_le hi, odds_append, List.length_append]
    unfold Progress.cntDone
    simp only [not_or] at hmid
    simp [hmid.1, hmid.2.1, hmid.2.2]

theorem AInv.count_le {arr : List Int} {d m : Int} {ps : List Progress} {W : Nat}
    (hW : 1 ≤ W) (hs : (arr.length : Int) ≤ INT_MAX) (h : AInv arr d m ps)
    (hsh : Shape arr.length W ps) :
    (ps.map (fun p => p.cntDone arr + (if p.stage = .pendingSum then 1 else 0))).sum ≤
      arr.length := by
  have h1 : (ps.map (fun p => p.cntDone arr + (if p.stage = .pendingSum then 1 else 0))).sum ≤
      (ps.map (fun p => (odds (seg arr p.start p.stop)).length)).sum := by
    apply List.sum_le_sum
    intro p hp
    obtain ⟨t, ht, e1, e2⟩ := hsh.mem hp
    have hv := workerStart_le_end hs ht
    rw [← e1, ← e2] at hv
    exact (h.ok p hp).touched_le hv.2.1
  have h2 : (ps.map (fun p => (odds (seg arr p.start p.stop)).length)).sum =
      (odds arr).length := by
    have e : ps.map (fun p => (odds (seg arr p.start p.stop)).length) =
        (ps.map (fun p => (p.start, p.stop))).map (fun q => (odds (seg arr q.1 q.2)).length) := by
      rw [List.map_map]
      rfl
    rw [e, hsh]
    have e2 : ((List.range W).map
          (fun t => (workerStart arr.length W t, workerEnd arr.length W t))).map
          (fun q => (odds (seg arr q.1 q.2)).length) =
        ((List.range W).map (fun t =>
          seg arr (workerStart arr.length W t) (workerEnd arr.length W t))).map
          (fun l => (odds l).length) := by
      simp only [List.map_map, Function.comp_def]
    rw [e2, ← odds_length_flatten, segs_flatten arr W hW hs]
  have h3 := odds_length_le arr
  omega

theorem sumDone_bound {arr : List Int} {p : Progress} (h : WorkerOK arr p)
    (hB : ∀ v ∈ arr, -10000 ≤ v ∧ v ≤ 10000) :
    -(10000 * (p.cntDone arr : Int)) ≤ p.sumDone arr ∧
      p.sumDone arr ≤ 10000 * (p.cntDone arr : Int) := by
  have h1 := sum_bound (odds (seg arr p.start p.i))
    (fun v hv => hB v (mem_of_mem_seg (mem_odds.1 hv).1))
  unfold Progress.sumDone Progress.cntDone oddSum
  by_cases hp : p.stage = .pendingMin ∨ p.stage = .applied
  · have hv := hB p.val (readAt_mem (h.mid (Or.inr hp)).2.2.1)
    rw [if_pos hp, if_pos hp]
    push_cast
    omega
  · rw [if_neg hp, if_neg hp]
    push_cast
    omega

theorem sum_map_bound (ps : List Progress) (f : Progress → Int) (c : Progress → Nat)
    (h : ∀ p ∈ ps, -(10000 * (c p : Int)) ≤ f p ∧ f p ≤ 10000 * (c p : Int)) :
    -(10000 * ((ps.map c).sum : Int)) ≤ (ps.map f).sum ∧
      (ps.map f).sum ≤ 10000 * ((ps.map c).sum : Int) := by
  induction ps with
  | nil => simp
  | cons p ps ih =>
    have hp := h p (List.mem_cons_self _ _)
    have := ih (fun q hq => h q (List.mem_cons_of_mem _ hq))
    simp only [List.map_cons, List.sum_cons, Nat.cast_add]
    omega

theorem sum_succ_le (ps : List Progress) (c : Progress → Nat) (e : Progress → Nat)
    {p : Progress} (hp : p ∈ ps) (he : e p = 1) :
    (ps.map c).sum + 1 ≤ (ps.map (fun q => c q + e q)).sum := by
  induction ps with
  | nil => simp at hp
  | cons q ps ih =>
    simp only [List.map_cons, List.sum_cons]
    rcases List.mem_cons.1 hp with h | h
    · subst h
      have : (ps.map c).sum ≤ (ps.map (fun q => c q + e q)).sum :=
        List.sum_le_sum (fun q _ => Nat.le_add_right _ _)
      omega
    · have := ih h
      omega

/-- In the driver range the accumulator invariant determines the shared sum
exactly, and a pending subtraction does not overflow. -/
theorem AInv.exact {arr : List Int} {d m : Int} {ps : List Progress} {W : Nat}
    (hW : 1 ≤ W) (hN : (arr.length : Int) ≤ 214748)
    (hB : ∀ v ∈ arr, -10000 ≤ v ∧ v ≤ 10000) (h : AInv arr d m ps)
    (hsh : Shape arr.length W ps) :
    d = -((ps.map (Progress.sumDone arr)).sum) ∧ IsInt (-((ps.map (Progress.sumDone arr)).sum)) ∧
      ∀ p ∈ ps, p.stage = .pendingSum → IsInt (d - p.val) := by
  have hs : (arr.length : Int) ≤ INT_MAX := by unfold INT_MAX; omega
  have hc := h.count_le hW hs hsh
  have hb := sum_map_bound ps (Progress.sumDone arr) (Progress.cntDone arr)
    (fun p hp => sumDone_bound (h.ok p hp) hB)
  have hle : (ps.map (Progress.cntDone arr)).sum ≤
      (ps.map (fun p => p.cntDone arr + (if p.stage = .pendingSum then 1 else 0))).sum :=
    List.sum_le_sum (fun q _ => Nat.le_add_right _ _)
  have hI : IsInt (-((ps.map (Progress.sumDone arr)).sum)) := by
    unfold IsInt INT_MIN INT_MAX
    omega
  have hd : d = -((ps.map (Progress.sumDone arr)).sum) := by
    rw [h.sum]
    exact wrapInt_of_isInt hI
  refine ⟨hd, hI, ?_⟩
  intro p hp hst
  have h1 : (ps.map (Progress.cntDone arr)).sum + 1 ≤
      (ps.map (fun p => p.cntDone arr + (if p.stage = .pendingSum then 1 else 0))).sum :=
    sum_succ_le ps (Progress.cntDone arr)
      (fun p => if p.stage = .pendingSum then 1 else 0) hp (by simp [hst])
  have hv := hB p.val (readAt_mem ((h.ok p hp).mid (Or.inl hst)).2.2.1)
  rw [hd]
  unfold IsInt INT_MIN INT_MAX
  omega

/-! ## No subtraction wraps in the driver range -/

theorem nbWorkerStep_to_sumCas (arr : List Int) (ok : Bool) (d m : Int) (w : NBWorker)
    (h : (nbWorkerStep arr ok d m w).2.2.pc = .sumCas) : w.pc = .sumLoad := by
  obtain ⟨start, stop, i, val, oldVal, newVal, pc⟩ := w
  cases pc with
  | loopHead =>
    simp only [nbWorkerStep] at h
    by_cases hi : i < stop
    · rw [if_pos hi] at h
      cases hr : readAt arr i with
      | none => rw [hr] at h; simp at h
      | some v =>
        rw [hr] at h
        simp only at h
        split_ifs at h
    · rw [if_neg hi] at h
      simp at h
  | sumLoad => rfl
  | sumCas =>
    simp only [nbWorkerStep] at h
    split_ifs at h
  | minLoad =>
    simp only [nbWorkerStep] at h
    split_ifs at h
  | minCas =>
    simp only [nbWorkerStep] at h
    split_ifs at h
  | finished => simp [nbWorkerStep] at h
  | faulted => simp [nbWorkerStep] at h

theorem nb_exact_step {arr : List Int} {W : Nat} {s : NBState} (hW : 1 ≤ W)
    (hN : (arr.length : Int) ≤ 214748) (hB : ∀ v ∈ arr, -10000 ≤ v ∧ v ≤ 10000)
    (hinv : NBInv arr s) (hsh : Shape arr.length W (s.workers.map nbView))
    (hex : ∀ w ∈ s.workers, w.pc = .sumCas → IsInt (w.oldVal - w.val)) (c : Nat × Bool) :
    ∀ w ∈ (nbStep arr s c).workers, w.pc = .sumCas → IsInt (w.oldVal - w.val) := by
  unfold nbStep
  cases hw : s.workers[c.1]? with
  | none => exact hex
  | some w0 =>
    intro w hwm hpc
    rcases mem_set_cases hwm with h | h
    · exact hex w h hpc
    · subst h
      have h0 := nbWorkerStep_to_sumCas arr c.2 s.diffOdd s.minOdd w0 hpc
      rw [nbWorkerStep_sumLoad arr c.2 _ _ w0 h0]
      simp only
      have hmem : nbView w0 ∈ s.workers.map nbView :=
        List.mem_map.2 ⟨w0, mem_of_getElem?_eq_some hw, rfl⟩
      exact (hinv.1.exact hW hN hB hsh).2.2 (nbView w0) hmem (by simp [nbView, h0, nbStage])

theorem nb_exact_run {arr : List Int} {W : Nat} {s : NBState} (hW : 1 ≤ W)
    (hN : (arr.length : Int) ≤ 214748) (hB : ∀ v ∈ arr, -10000 ≤ v ∧ v ≤ 10000)
    (hinv : NBInv arr s) (hsh : Shape arr.length W (s.workers.map nbView))
    (hex : ∀ w ∈ s.workers, w.pc = .sumCas → IsInt (w.oldVal - w.val))
    (sched : List (Nat × Bool)) :
    ∀ w ∈ (nbRun arr s sched).workers, w.pc = .sumCas → IsInt (w.oldVal - w.val) := by
  unfold nbRun
  induction sched generalizing s with
  | nil => exact hex
  | cons c cs ih =>
    exact ih (hinv.nb_step c) (nb_shape_step hinv.2 hsh c) (nb_exact_step hW hN hB hinv hsh hex c)

/-- In the driver range, in every reachable state of `getNonBlocking` the shared
sum is exact and so is every candidate a worker computes for it. -/
theorem nb_exact_reach {arr : List Int} {W : Nat} (hW : 1 ≤ W)
    (hN : (arr.length : Int) ≤ 214748) (hB : ∀ v ∈ arr, -10000 ≤ v ∧ v ≤ 10000)
    (sched : List (Nat × Bool)) :
    (nbRun arr (nbInit W arr) sched).diffOdd =
        -((nbRun arr (nbInit W arr) sched).workers.map (nbSumCompleted arr)).flatten.sum ∧
      IsInt (nbRun arr (nbInit W arr) sched).diffOdd ∧
      (∀ w ∈ (nbRun arr (nbInit W arr) sched).workers, w.pc = .sumLoad →
        IsInt ((nbRun arr (nbInit W arr) sched).diffOdd - w.val)) ∧
      (∀ w ∈ (nbRun arr (nbInit W arr) sched).workers, w.pc = .sumCas →
        IsInt (w.oldVal - w.val) ∧ w.newVal = w.oldVal - w.val) := by
  have hinv := NBInv.nb_reach W arr sched
  have hsh := nb_shape_reach W arr sched
  obtain ⟨e1, e2, e3⟩ := hinv.1.exact hW hN hB hsh
  have hex := nb_exact_run hW hN hB (NBInv.nb_init W arr) (nb_shape_init W arr)
    (by
      intro w hw hpc
      simp only [nbInit, List.mem_map, List.mem_range] at hw
      obtain ⟨t, _, rfl⟩ := hw
      simp [nbWorkerInit] at hpc) sched
  have hsum : ((nbRun arr (nbInit W arr) sched).workers.map (nbSumCompleted arr)).flatten.sum =
      (((nbRun arr (nbInit W arr) sched).workers.map nbView).map (Progress.sumDone arr)).sum := by
    rw [sum_flatten_eq, List.map_map, List.map_map]
    congr 1
    apply List.map_congr_left
    intro w _
    exact (sumDone_nbView arr w).symm
  refine ⟨by rw [hsum]; exact e1, by rw [e1]; exact e2, ?_, ?_⟩
  · intro w hw hpc
    exact e3 (nbView w) (List.mem_map.2 ⟨w, hw, rfl⟩) (by simp [nbView, hpc, nbStage])
  · intro w hw hpc
    have h1 := hex w hw hpc
    refine ⟨h1, ?_⟩
    rw [(hinv.2 w hw).1 hpc]
    exact wrapInt_of_isInt h1

theorem sumDone_bView (arr : List Int) (w : BWorker) :
    (bView w).sumDone arr = (bSumCompleted arr w).sum := by
  unfold Progress.sumDone bSumCompleted bView
  cases hpc : w.pc <;> simp [bStage, oddSum]

/-- In the driver range, in every reachable state of `getBlocking` the shared
sum is exact and the subtraction a worker is about to write does not overflow. -/
theorem b_exact_reach {arr : List Int} {W : Nat} (hW : 1 ≤ W)
    (hN : (arr.length : Int) ≤ 214748) (hB : ∀ v ∈ arr, -10000 ≤ v ∧ v ≤ 10000)
    (sched : List Nat) :
    (bRun arr (bInit W arr) sched).diffOdd =
        -((bRun arr (bInit W arr) sched).workers.map (bSumCompleted arr)).flatten.sum ∧
      IsInt (bRun arr (bInit W arr) sched).diffOdd ∧
      (∀ w ∈ (bRun arr (bInit W arr) sched).workers, w.pc = .sumWrite →
        w.tmp = (bRun arr (bInit W arr) sched).diffOdd ∧ IsInt (w.tmp - w.val)) := by
  have hinv := BInv.b_reach W arr sched
  have hsh := b_shape_reach W arr sched
  obtain ⟨e1, e2, e3⟩ := hinv.1.exact hW hN hB hsh
  have hsum : ((bRun arr (bInit W arr) sched).workers.map (bSumCompleted arr)).flatten.sum =
      (((bRun arr (bInit W arr) sched).workers.map bView).map (Progress.sumDone arr)).sum := by
    rw [sum_flatten_eq, List.map_map, List.map_map]
    congr 1
    apply List.map_congr_left
    intro w _
    exact (sumDone_bView arr w).symm
  refine ⟨by rw [hsum]; exact e1, by rw [e1]; exact e2, ?_⟩
  intro w hw hpc
  obtain ⟨t, ht⟩ := List.mem_iff_getElem?.1 hw
  have ht1 := (hinv.2 t w ht).2.1 hpc
  refine ⟨ht1, ?_⟩
  rw [ht1]
  exact e3 (bView w) (List.mem_map.2 ⟨w, hw, rfl⟩) (by simp [bView, hpc, bStage])

/-- In the driver range the sequential sum is the exact negated odd sum. -/
theorem getSequential_fst_exact {arr : List Int} (hN : (arr.length : Int) ≤ 214748)
    (hB : ∀ v ∈ arr, -10000 ≤ v ∧ v ≤ 10000) :
    (getSequential arr).1 = -(oddSum arr) := by
  rw [getSequential_fst]
  exact wrapInt_of_isInt (isInt_neg_sum (odds_bounded hB) (odds_length_le arr) hN)

/-! ## Further facts used by the claims -/

theorem isOddVal_eq_false_iff_tmod (v : Int) : isOddVal v = false ↔ Int.tmod v 2 = 0 := by
  simp [isOddVal]

theorem getSequential_snd_eq_max_iff {A : List Int} (hA : ∀ v ∈ A, IsInt v) :
    (getSequential A).2 = INT_MAX ↔ ∀ v ∈ A, Int.tmod v 2 ≠ 0 → v = INT_MAX := by
  constructor
  · intro h v hv hodd
    have h1 := (getSequential_snd_le A).2 v (mem_odds.2 ⟨hv, (isOddVal_iff_tmod v).2 hodd⟩)
    have h2 := (hA v hv).2
    rw [h] at h1
    omega
  · intro h
    rcases getSequential_snd_mem A with h1 | h1
    · exact h1
    · obtain ⟨h2, h3⟩ := mem_odds.1 h1
      exact h _ h2 ((isOddVal_iff_tmod _).1 h3)

theorem partition_in_bounds {size W i : Nat} (hs : (size : Int) ≤ INT_MAX) (hi : i < W)
    {k : Int} (hk : inRange size W i k) : 0 ≤ k ∧ k < size := by
  have h := workerStart_le_end hs hi
  unfold inRange at hk
  omega

theorem partition_unique {size W : Nat} (hW : 1 ≤ W) (hs : (size : Int) ≤ INT_MAX)
    (k : Int) (h0 : 0 ≤ k) (hk : k < size) : ∃! i, i < W ∧ inRange size W i k := by
  obtain ⟨n, rfl⟩ := Int.eq_ofNat_of_zero_le h0
  obtain ⟨i, hi, hr⟩ := inRange_cover hs hW n (by exact_mod_cast hk)
  refine ⟨i, ⟨hi, hr⟩, ?_⟩
  rintro j ⟨hj, hrj⟩
  by_contra hne
  exact inRange_disjoint hs hj hi hne n ⟨hrj, hr⟩

theorem partition_degenerate {size W : Nat} (hs : (size : Int) ≤ INT_MAX) (hlt : size < W) :
    (∀ i, i + 1 < W → workerStart size W i = workerEnd size W i) ∧
      workerEnd size W (W - 1) = size := by
  have hq : size / W = 0 := Nat.div_eq_of_lt hlt
  constructor
  · intro i hi
    rw [workerStart_eq hs (by omega), workerEnd_eq hs (by omega), if_neg (by omega), hq]
    simp
  · rw [workerEnd_eq hs (by omega), if_pos (by omega)]

theorem nb_reach_lb (W : Nat) (arr : List Int) (sched : List (Nat × Bool)) (w : NBWorker)
    (hw : w ∈ (nbRun arr (nbInit W arr) sched).workers) :
    ∀ v ∈ odds (seg arr w.start w.i), (nbRun arr (nbInit W arr) sched).minOdd ≤ v := by
  intro v hv
  apply (NBInv.nb_reach W arr sched).1.lb (nbView w) (List.mem_map.2 ⟨w, hw, rfl⟩)
  simp only [Progress.minDone, List.mem_append]
  left
  exact hv

theorem getSequential_take_exact {arr : List Int} (hN : (arr.length : Int) ≤ 214748)
    (hB : ∀ v ∈ arr, -10000 ≤ v ∧ v ≤ 10000) (k : Nat) :
    (getSequential (arr.take k)).1 = -(oddSum (arr.take k)) ∧
      IsInt (-(oddSum (arr.take k))) := by
  have h1 : ((arr.take k).length : Int) ≤ 214748 := by
    rw [List.length_take]
    omega
  have h2 : ∀ v ∈ arr.take k, -10000 ≤ v ∧ v ≤ 10000 :=
    fun v hv => hB v (List.mem_of_mem_take hv)
  exact ⟨getSequential_fst_exact h1 h2,
    isInt_neg_sum (odds_bounded h2) (odds_length_le _) h1⟩

theorem processed_even {W : Nat} {A : List Int} (hE : ∀ v ∈ A, Int.tmod v 2 = 0) :
    getSequential (processed W A) = (0, INT_MAX) :=
  getSequential_of_even
    (fun v hv => (isOddVal_eq_false_iff_tmod v).2 (hE v (mem_of_mem_processed hv)))

theorem wrapInt_le_self {x : Int} (h : -2147483648 ≤ x) : wrapInt x ≤ x := by
  unfold wrapInt
  omega

/-- With four workers every range lies inside the array as long as
`3 * (size / 4)` is an `int`, that is, for `size <= 2863311531`. -/
theorem four_worker_bounds (size : Nat) (h : size ≤ 2863311531) (t : Nat) (ht : t < 4) :
    0 ≤ workerStart size 4 t ∧ workerEnd size 4 t ≤ (size : Int) := by
  have hc0 : size / 4 ≤ 715827882 := by omega
  have hc4 : 4 * (size / 4) ≤ size := Nat.mul_div_le size 4
  have hc : chunkSize size 4 = ((size / 4 : Nat) : Int) := by
    unfold chunkSize
    apply wrapInt_of_isInt
    unfold IsInt INT_MIN INT_MAX
    omega
  generalize size / 4 = c at hc0 hc4 hc
  have hst : workerStart size 4 t = (t : Int) * (c : Int) := by
    unfold workerStart
    rw [hc]
    apply wrapInt_of_isInt
    unfold IsInt INT_MIN INT_MAX
    interval_cases t <;> omega
  refine ⟨by rw [hst]; exact mul_nonneg (Int.natCast_nonneg _) (Int.natCast_nonneg _), ?_⟩
  unfold workerEnd
  rw [hst, hc]
  by_cases h4 : t + 1 = 4
  · rw [if_pos h4]
    exact wrapInt_le_self (by omega)
  · rw [if_neg h4]
    have : wrapInt ((t : Int) * (c : Int) + (c : Int)) = (t : Int) * (c : Int) + (c : Int) := by
      apply wrapInt_of_isInt
      unfold IsInt INT_MIN INT_MAX
      interval_cases t <;> omega
    rw [this]
    interval_cases t <;> omega

/-- For up to `2863311531` elements the serial schedule lets `getBlocking`
return. -/
theorem getBlocking_serial_returns (A : List Int) (h : A.length ≤ 2863311531) :
    getBlocking A (bSerial threadCount (7 * A.length + 7)) =
      some (getSequential (processed threadCount A)) := by
  have hj := b_serial_joined 4 A (four_worker_bounds A.length h) (7 * A.length + 7) (le_refl _)
  have hr : ∃ r, getBlockingW 4 A (bSerial 4 (7 * A.length + 7)) = some r := by
    unfold getBlockingW
    simp only [hj, if_true]
    exact ⟨_, rfl⟩
  obtain ⟨r, hr⟩ := hr
  unfold getBlocking threadCount
  rw [hr, getBlockingW_processed hr]

/-- For up to `2863311531` elements the serial schedule lets `getNonBlocking`
return. -/
theorem getNonBlocking_serial_returns (A : List Int) (h : A.length ≤ 2863311531) :
    getNonBlocking A (nbSerial threadCount (5 * A.length + 5)) =
      some (getSequential (processed threadCount A)) := by
  have hj := nb_serial_joined 4 A (four_worker_bounds A.length h) (5 * A.length + 5) (le_refl _)
  have hr : ∃ r, getNonBlockingW 4 A (nbSerial 4 (5 * A.length + 5)) = some r := by
    unfold getNonBlockingW
    simp only [hj, if_true]
    exact ⟨_, rfl⟩
  obtain ⟨r, hr⟩ := hr
  unfold getNonBlocking threadCount
  rw [hr, getNonBlockingW_processed hr]

set_option maxRecDepth 100000

/-! ## The claims -/

/-- C1. For every `int` array `A`, `getSequential A` returns `(s, m)` where `s`
is the negation of the sum of the elements with `v % 2 != 0`, in 32-bit wrapping
arithmetic (also when the wrap is applied at every single subtraction), and `m`
is the sentinel `INT_MAX` when `A` has no odd element and otherwise the least
odd element of `A`. -/
theorem getSequential_spec (A : List Int) (hA : ∀ v ∈ A, IsInt v) :
    (getSequential A).1 = wrapInt (-((A.filter (fun v => Int.tmod v 2 != 0)).sum)) ∧
    (getSequential A).1 =
      (A.filter (fun v => Int.tmod v 2 != 0)).foldl (fun s v => wrapInt (s - v)) 0 ∧
    ((∀ v ∈ A, Int.tmod v 2 = 0) → (getSequential A).2 = INT_MAX) ∧
    ((∃ v ∈ A, Int.tmod v 2 ≠ 0) →
      (getSequential A).2 ∈ A ∧ Int.tmod (getSequential A).2 2 ≠ 0 ∧
        ∀ v ∈ A, Int.tmod v 2 ≠ 0 → (getSequential A).2 ≤ v) := by
  have hs := getSequential_fst A
  refine ⟨hs, ?_, ?_, ?_⟩
  · rw [getSequential_eq]
    have : ∀ (l : List Int) (acc : Int × Int),
        (l.foldl applyOdd acc).1 = l.foldl (fun s v => wrapInt (s - v)) acc.1 := by
      intro l
      induction l with
      | nil => intro acc; rfl
      | cons x l ih => intro acc; simp only [List.foldl_cons, ih]; rfl
    exact this _ _
  · intro h
    rw [getSequential_of_even (fun v hv => (isOddVal_eq_false_iff_tmod v).2 (h v hv))]
  · rintro ⟨v, hv, hodd⟩
    have hle := getSequential_snd_le A
    have hvo : v ∈ odds A := mem_odds.2 ⟨hv, (isOddVal_iff_tmod v).2 hodd⟩
    have hmem : (getSequential A).2 ∈ odds A := by
      rcases getSequential_snd_mem A with h | h
      · have h1 := hle.2 v hvo
        have h2 := (hA v hv).2
        have : v = (getSequential A).2 := by rw [h] at h1 ⊢; omega
        rw [← this]; exact hvo
      · exact h
    obtain ⟨h1, h2⟩ := mem_odds.1 hmem
    refine ⟨h1, (isOddVal_iff_tmod _).1 h2, ?_⟩
    intro u hu huo
    exact hle.2 u (mem_odds.2 ⟨hu, (isOddVal_iff_tmod u).2 huo⟩)

/-- C1 at `[1, 2, 3, 4, 5]`: the result is `(-9, 1)`. -/
theorem getSequential_spec_witness :
    (∀ v ∈ ([1, 2, 3, 4, 5] : List Int), IsInt v) ∧
    (getSequential [1, 2, 3, 4, 5]).1 =
      wrapInt (-((([1, 2, 3, 4, 5] : List Int).filter (fun v => Int.tmod v 2 != 0)).sum)) ∧
    (getSequential [1, 2, 3, 4, 5]).2 ∈ ([1, 2, 3, 4, 5] : List Int) ∧
    getSequential [1, 2, 3, 4, 5] = (-9, 1) :=
  ⟨by decide, (getSequential_spec [1, 2, 3, 4, 5] (by decide)).1,
    ((getSequential_spec [1, 2, 3, 4, 5] (by decide)).2.2.2 ⟨1, by decide, by decide⟩).1,
    by decide⟩

/-- C2 (amended). For every array `A` whose length is at most `INT_MAX` and
every worker count `W >= 1` (in particular the source's `W = 4`): under every
schedule of the workers' actions, if `getBlocking` resp. `getNonBlocking`
returns, the returned accumulator pair equals `getSequential A`; and there is a
schedule under which it returns. -/
theorem parallel_eq_sequential (W : Nat) (A : List Int) (hW : 1 ≤ W)
    (hlen : (A.length : Int) ≤ INT_MAX) :
    (∀ sched r, getBlockingW W A sched = some r → r = getSequential A) ∧
    (∃ sched, getBlockingW W A sched = some (getSequential A)) ∧
    (∀ sched r, getNonBlockingW W A sched = some r → r = getSequential A) ∧
    (∃ sched, getNonBlockingW W A sched = some (getSequential A)) ∧
    (∀ sched r, getBlocking A sched = some r → r = getSequential A) ∧
    (∀ sched r, getNonBlocking A sched = some r → r = getSequential A) :=
  ⟨fun _ _ h => getBlockingW_sound hW hlen h,
    ⟨_, getBlockingW_serial hW hlen _ (le_refl _)⟩,
    fun _ _ h => getNonBlockingW_sound hW hlen h,
    ⟨_, getNonBlockingW_serial hW hlen _ (le_refl _)⟩,
    fun _ _ h => getBlockingW_sound (by decide) hlen h,
    fun _ _ h => getNonBlockingW_sound (by decide) hlen h⟩

/-- C2 at `A = [1, 2, 3, 4, 5]` with two workers. -/
theorem parallel_eq_sequential_witness :
    1 ≤ 2 ∧ ((([1, 2, 3, 4, 5] : List Int).length : Int) ≤ INT_MAX) ∧
    (∀ sched r, getBlockingW 2 [1, 2, 3, 4, 5] sched = some r → r = (-9, 1)) ∧
    (∀ sched r, getNonBlockingW 2 [1, 2, 3, 4, 5] sched = some r → r = (-9, 1)) ∧
    getNonBlockingW 2 [1, 2, 3, 4, 5]
      [(0, true), (1, true), (1, true), (0, true), (1, false), (0, true), (1, true), (1, true),
       (1, true), (0, true), (0, true), (1, true), (1, true), (1, true), (1, true), (1, true),
       (0, true), (0, true), (0, true), (1, true), (1, true), (1, true), (1, true), (1, true),
       (1, true), (0, true), (0, true), (1, true), (1, true)] = some (-9, 1) :=
  ⟨by decide, by decide,
    (parallel_eq_sequential 2 [1, 2, 3, 4, 5] (by decide) (by decide)).1,
    (parallel_eq_sequential 2 [1, 2, 3, 4, 5] (by decide) (by decide)).2.2.1,
    by decide⟩

/-- C2 fails for an array of `2^31` elements (zeros followed by a single `1`):
`arr.size()` narrowed to `int` is negative, the last worker gets the empty range
`[1610612736, -2147483648)`, and `getBlocking` returns `(0, INT_MAX)` where
`getSequential` returns `(-1, 1)`. -/
theorem parallel_ne_sequential_big :
    bigArray.length = 2147483648 ∧
    workerStart bigArray.length 4 3 = 1610612736 ∧
    workerEnd bigArray.length 4 3 = -2147483648 ∧
    getBlocking bigArray (bSerial 4 (7 * bigArray.length + 7)) = some (0, INT_MAX) ∧
    getSequential bigArray = (-1, 1) :=
  ⟨bigArray_length, by rw [bigArray_length]; exact big_ranges.2.2.2.2.2.2.1,
    by rw [bigArray_length]; exact big_ranges.2.2.2.2.2.2.2,
    getBlocking_bigArray, getSequential_bigArray⟩

/-- C3 (amended). For every array length `N <= INT_MAX` and worker count
`W >= 1`, the bounds handed to worker `i < W` are `start = i * (N / W)` and
`end = start + N / W`, resp. `end = N` for the last worker; the ranges are
pairwise disjoint, lie inside `[0, N)`, and every index of `[0, N)` lies in
exactly one of them; when `N < W` the first `W - 1` ranges are empty and the last
one ends at `N`. -/
theorem partition_spec (size W : Nat) (hW : 1 ≤ W) (hs : (size : Int) ≤ INT_MAX) :
    (∀ i, i < W →
      workerStart size W i = (i : Int) * ((size / W : Nat) : Int) ∧
      workerEnd size W i =
        if i + 1 = W then (size : Int)
        else (i : Int) * ((size / W : Nat) : Int) + ((size / W : Nat) : Int)) ∧
    (∀ i j, i < W → j < W → i ≠ j → ∀ k, ¬ (inRange size W i k ∧ inRange size W j k)) ∧
    (∀ k : Int, 0 ≤ k → k < size → ∃! i, i < W ∧ inRange size W i k) ∧
    (∀ i, i < W → ∀ k, inRange size W i k → 0 ≤ k ∧ k < size) ∧
    (size < W → (∀ i, i + 1 < W → workerStart size W i = workerEnd size W i) ∧
      workerEnd size W (W - 1) = size) := by
  refine ⟨?_, ?_, ?_, ?_, ?_⟩
  · intro i hi
    rw [workerStart_eq hs (le_of_lt hi), workerEnd_eq hs hi]
    refine ⟨by push_cast; ring, ?_⟩
    split_ifs
    · rfl
    · push_cast; ring
  · intro i j hi hj hij k
    exact inRange_disjoint hs hi hj hij k
  · intro k h0 hk
    exact partition_unique hW hs k h0 hk
  · intro i hi k hk
    exact partition_in_bounds hs hi hk
  · intro hlt
    exact partition_degenerate hs hlt

/-- C3 at `N = 3`, `W = 4`: the ranges are `[0,0)`, `[0,0)`, `[0,0)`, `[0,3)`. -/
theorem partition_spec_witness :
    1 ≤ 4 ∧ ((3 : Nat) : Int) ≤ INT_MAX ∧
    (∀ k : Int, 0 ≤ k → k < (3 : Nat) → ∃! i, i < 4 ∧ inRange 3 4 i k) ∧
    workerStart 3 4 0 = workerEnd 3 4 0 ∧ workerEnd 3 4 (4 - 1) = (3 : Nat) :=
  ⟨by decide, by decide, (partition_spec 3 4 (by decide) (by decide)).2.2.1,
    ((partition_spec 3 4 (by decide) (by decide)).2.2.2.2 (by decide)).1 0 (by decide),
    ((partition_spec 3 4 (by decide) (by decide)).2.2.2.2 (by decide)).2⟩

/-- C3 fails at `N = 2^31`, `W = 4`: index `1610612736` of `[0, N)` lies in none
of the four ranges, because the last worker is handed
`[1610612736, -2147483648)`. -/
theorem partition_gap_big :
    (0 : Int) ≤ 1610612736 ∧ (1610612736 : Int) < (2147483648 : Nat) ∧
    workerStart 2147483648 4 3 = 1610612736 ∧ workerEnd 2147483648 4 3 = -2147483648 ∧
    ¬ inRange 2147483648 4 0 1610612736 ∧ ¬ inRange 2147483648 4 1 1610612736 ∧
    ¬ inRange 2147483648 4 2 1610612736 ∧ ¬ inRange 2147483648 4 3 1610612736 := by
  decide

/-- C4 (amended). For every array `A` that contains only even values (the empty
array included): `getSequential` returns `(0, INT_MAX)`; whenever `getBlocking`
or `getNonBlocking` returns, it returns `(0, INT_MAX)`; and when `A` has at most
`2863311531` elements (so that `3 * (size / 4)` is an `int`; this includes every
length up to `INT_MAX`) there is a schedule under which each of them returns. -/
theorem no_odd_result (A : List Int) (hE : ∀ v ∈ A, Int.tmod v 2 = 0) :
    getSequential A = (0, INT_MAX) ∧
    (∀ sched r, getBlocking A sched = some r → r = (0, INT_MAX)) ∧
    (∀ sched r, getNonBlocking A sched = some r → r = (0, INT_MAX)) ∧
    (A.length ≤ 2863311531 →
      (∃ sched, getBlocking A sched = some (0, INT_MAX)) ∧
      (∃ sched, getNonBlocking A sched = some (0, INT_MAX))) := by
  have hseq : getSequential A = (0, INT_MAX) :=
    getSequential_of_even (fun v hv => (isOddVal_eq_false_iff_tmod v).2 (hE v hv))
  refine ⟨hseq, ?_, ?_, ?_⟩
  · intro sched r h
    rw [getBlockingW_processed h, processed_even hE]
  · intro sched r h
    rw [getNonBlockingW_processed h, processed_even hE]
  · intro hlen
    refine ⟨⟨bSerial threadCount (7 * A.length + 7), ?_⟩,
      ⟨nbSerial threadCount (5 * A.length + 5), ?_⟩⟩
    · rw [getBlocking_serial_returns A hlen, processed_even hE]
    · rw [getNonBlocking_serial_returns A hlen, processed_even hE]

/-- C4 at `A = [8, -2, 0, 4, 6]` and at the empty array. -/
theorem no_odd_result_witness :
    (∀ v ∈ ([8, -2, 0, 4, 6] : List Int), Int.tmod v 2 = 0) ∧
    getSequential [8, -2, 0, 4, 6] = (0, INT_MAX) ∧
    (∀ sched r, getNonBlocking [8, -2, 0, 4, 6] sched = some r → r = (0, INT_MAX)) ∧
    getSequential [] = (0, INT_MAX) ∧
    getBlocking [] [0, 1, 2, 3] = some (0, INT_MAX) ∧
    getNonBlocking [] [(0, true), (1, true), (2, true), (3, true)] = some (0, INT_MAX) :=
  ⟨by decide, (no_odd_result [8, -2, 0, 4, 6] (by decide)).1,
    (no_odd_result [8, -2, 0, 4, 6] (by decide)).2.2.1,
    (no_odd_result [] (by decide)).1, by decide, by decide⟩

/-- C4 fails for an array of `2863311532` zeros: the last worker is handed the
range `[-2147483647, -1431655764)`, reads out of bounds, and `getNonBlocking`
returns under no schedule. -/
theorem no_odd_result_big :
    bigEvenArray.length = 2863311532 ∧
    (∀ v ∈ bigEvenArray, Int.tmod v 2 = 0) ∧
    workerStart bigEvenArray.length 4 3 = -2147483647 ∧
    workerEnd bigEvenArray.length 4 3 = -1431655764 ∧
    readAt bigEvenArray (-2147483647) = none ∧
    (∀ sched, getNonBlocking bigEvenArray sched = none) := by
  refine ⟨bigEvenArray_length, ?_, ?_, ?_, readAt_neg _ (by decide),
    getNonBlocking_bigEvenArray⟩
  · intro v hv
    unfold bigEvenArray at hv
    rw [List.mem_replicate] at hv
    rw [hv.2]
    decide
  · rw [bigEvenArray_length]; exact bigEven_range.1
  · rw [bigEvenArray_length]; exact bigEven_range.2

/-- C5 (amended). For every `int` array `A`, the minimum returned by
`getSequential` equals the sentinel `INT_MAX` exactly when every odd element of
`A` equals `INT_MAX` (so for any array with an odd value below `INT_MAX` the
result differs from the sentinel); the same holds for whatever `getBlocking`
and `getNonBlocking` return when the length of `A` is at most `INT_MAX`. -/
theorem sentinel_iff (A : List Int) (hA : ∀ v ∈ A, IsInt v) :
    ((getSequential A).2 = INT_MAX ↔ ∀ v ∈ A, Int.tmod v 2 ≠ 0 → v = INT_MAX) ∧
    ((A.length : Int) ≤ INT_MAX →
      (∀ sched r, getBlocking A sched = some r →
        (r.2 = INT_MAX ↔ ∀ v ∈ A, Int.tmod v 2 ≠ 0 → v = INT_MAX)) ∧
      (∀ sched r, getNonBlocking A sched = some r →
        (r.2 = INT_MAX ↔ ∀ v ∈ A, Int.tmod v 2 ≠ 0 → v = INT_MAX))) := by
  have h := getSequential_snd_eq_max_iff hA
  refine ⟨h, fun hlen => ⟨?_, ?_⟩⟩
  · intro sched r hr
    rw [getBlockingW_sound (by decide) hlen hr]
    exact h
  · intro sched r hr
    rw [getNonBlockingW_sound (by decide) hlen hr]
    exact h

/-- C5 at `A = [4, 7, 2]`: the minimum is `7`, not the sentinel. -/
theorem sentinel_iff_witness :
    (∀ v ∈ ([4, 7, 2] : List Int), IsInt v) ∧
    ¬ (∀ v ∈ ([4, 7, 2] : List Int), Int.tmod v 2 ≠ 0 → v = INT_MAX) ∧
    (getSequential [4, 7, 2]).2 ≠ INT_MAX :=
  ⟨by decide, by decide,
    fun h => absurd ((sentinel_iff [4, 7, 2] (by decide)).1.1 h) (by decide)⟩

/-- C5 fails at `A = [INT_MAX]`: the array has an odd element and the minimum
returned is the sentinel; and on the array of `2^31` elements, whose last element
`1` is odd, `getNonBlocking` returns the sentinel as minimum. -/
theorem sentinel_with_odd_element :
    (∀ v ∈ ([2147483647] : List Int), IsInt v) ∧
    (2147483647 : Int) ∈ ([2147483647] : List Int) ∧ Int.tmod 2147483647 2 ≠ 0 ∧
    (getSequential [2147483647]).2 = INT_MAX ∧
    (1 : Int) ∈ bigArray ∧ Int.tmod 1 2 ≠ 0 ∧
    getNonBlocking bigArray (nbSerial 4 (5 * bigArray.length + 5)) = some (0, INT_MAX) := by
  refine ⟨by decide, by decide, by decide, by decide, ?_, by decide, getNonBlocking_bigArray⟩
  unfold bigArray
  exact List.mem_append_right _ (List.mem_singleton.2 rfl)

/-- C6. The test `v % 2 != 0` with truncating remainder holds for every negative
odd integer and fails for every even integer; for `A = [-3, -2, -1]` the odd
elements are `-3` and `-1`, `getSequential` returns `(4, -3)`, and `getBlocking`
and `getNonBlocking` return `(4, -3)` under every schedule under which they
return, which they do under the serial one. -/
theorem negative_odd_values :
    (∀ v : Int, v < 0 → Odd v → isOddVal v = true ∧ Int.tmod v 2 ≠ 0) ∧
    (∀ v : Int, Even v → isOddVal v = false ∧ Int.tmod v 2 = 0) ∧
    odds [-3, -2, -1] = [-3, -1] ∧
    getSequential [-3, -2, -1] = (4, -3) ∧
    (∀ sched r, getBlocking [-3, -2, -1] sched = some r → r = (4, -3)) ∧
    getBlocking [-3, -2, -1] (bSerial 4 16) = some (4, -3) ∧
    (∀ sched r, getNonBlocking [-3, -2, -1] sched = some r → r = (4, -3)) ∧
    getNonBlocking [-3, -2, -1] (nbSerial 4 12) = some (4, -3) := by
  have hseq : getSequential [-3, -2, -1] = (4, -3) := by decide
  refine ⟨?_, ?_, by decide, hseq, ?_, by decide, ?_, by decide⟩
  · intro v _ hv
    have h : isOddVal v = true := (isOddVal_iff v).2 (Int.odd_iff.1 hv)
    exact ⟨h, (isOddVal_iff_tmod v).1 h⟩
  · intro v hv
    have h : isOddVal v = false := (isOddVal_false_iff v).2 (Int.even_iff.1 hv)
    exact ⟨h, (isOddVal_eq_false_iff_tmod v).1 h⟩
  · intro sched r h
    rw [getBlockingW_sound (by decide) (by decide) h, hseq]
  · intro sched r h
    rw [getNonBlockingW_sound (by decide) (by decide) h, hseq]

/-- C7 (amended). In `getNonBlocking`, in every state reachable by atomic loads
and compare-and-swap attempts: a worker at the load reads the current shared sum
and computes `current - element`; its compare-and-swap, when it succeeds,
replaces the shared sum by `current - element` and, when it fails, leaves the
shared sum unchanged and sends the worker back to a fresh load; the shared sum
equals the wrapped negation of the sum of the odd elements whose sum update has
completed; the number of successful compare-and-swaps so far is the number of
those elements.  When the length of `A` is at most `INT_MAX` (and `W >= 1`),
after all workers have returned the completed elements are exactly the odd
elements of `A`, one successful compare-and-swap each, the shared sum is the
sequential result, and some schedule lets all workers return. -/
theorem lockfree_sum_no_lost_update (W : Nat) (A : List Int) (sched : List (Nat × Bool)) :
    (∀ (t : Nat) (ok : Bool) (w : NBWorker),
      (nbRun A (nbInit W A) sched).workers[t]? = some w → w.pc = .sumLoad →
      nbWorkerStep A ok (nbRun A (nbInit W A) sched).diffOdd
          (nbRun A (nbInit W A) sched).minOdd w =
        ((nbRun A (nbInit W A) sched).diffOdd, (nbRun A (nbInit W A) sched).minOdd,
          { w with oldVal := (nbRun A (nbInit W A) sched).diffOdd,
                   newVal := wrapInt ((nbRun A (nbInit W A) sched).diffOdd - w.val),
                   pc := .sumCas })) ∧
    (∀ (t : Nat) (ok : Bool) (w : NBWorker),
      (nbRun A (nbInit W A) sched).workers[t]? = some w → w.pc = .sumCas →
      nbWorkerStep A ok (nbRun A (nbInit W A) sched).diffOdd
          (nbRun A (nbInit W A) sched).minOdd w =
        if (ok && (nbRun A (nbInit W A) sched).diffOdd == w.oldVal) = true then
          (wrapInt ((nbRun A (nbInit W A) sched).diffOdd - w.val),
            (nbRun A (nbInit W A) sched).minOdd, { w with pc := .minLoad })
        else
          ((nbRun A (nbInit W A) sched).diffOdd, (nbRun A (nbInit W A) sched).minOdd,
            { w with oldVal := (nbRun A (nbInit W A) sched).diffOdd, pc := .sumLoad })) ∧
    (nbRun A (nbInit W A) sched).diffOdd =
      wrapInt (-(((nbRun A (nbInit W A) sched).workers.map (nbSumCompleted A)).flatten.sum)) ∧
    nbSumCasCount A (nbInit W A) sched =
      ((nbRun A (nbInit W A) sched).workers.map (nbSumCompleted A)).flatten.length ∧
    (1 ≤ W → (A.length : Int) ≤ INT_MAX → nbJoined (nbRun A (nbInit W A) sched) = true →
      ((nbRun A (nbInit W A) sched).workers.map (nbSumCompleted A)).flatten = odds A ∧
      nbSumCasCount A (nbInit W A) sched = (odds A).length ∧
      (nbRun A (nbInit W A) sched).diffOdd = (getSequential A).1) ∧
    (1 ≤ W → (A.length : Int) ≤ INT_MAX →
      ∃ sched', nbJoined (nbRun A (nbInit W A) sched') = true) := by
  have hinv := NBInv.nb_reach W A sched
  have hcount : nbSumCasCount A (nbInit W A) sched =
      ((nbRun A (nbInit W A) sched).workers.map (nbSumCompleted A)).flatten.length := by
    have := nb_count_run (NBInv.nb_init W A) sched
    rw [nbInit_completed] at this
    simpa using this.symm
  refine ⟨?_, ?_, hinv.diffOdd_eq, hcount, ?_, ?_⟩
  · intro t ok w _ hpc
    exact nbWorkerStep_sumLoad A ok _ _ w hpc
  · intro t ok w hw hpc
    exact nbWorkerStep_sumCas A ok _ _ w (nb_reach_local W A sched t w hw) hpc
  · intro hW hlen hj
    have hc := nb_completed_joined W A sched hj
    rw [processed_eq W A hW hlen] at hc
    refine ⟨hc, by rw [hcount, hc], ?_⟩
    rw [hinv.diffOdd_eq, hc, getSequential_fst]
    rfl
  · intro hW hlen
    exact ⟨nbSerial W (5 * A.length + 5), nb_serial_joined W A
      (fun t ht => ⟨(workerStart_le_end hlen ht).1, (workerStart_le_end hlen ht).2.2⟩) _
      (le_refl _)⟩

/-- C7 at `A = [1, 2, 3, 4, 5]` with two workers and a schedule on which one
compare-and-swap fails: three successful compare-and-swaps on the sum, one for
each of `1`, `3`, `5`, and the final sum is `-9`. -/
theorem lockfree_sum_no_lost_update_witness :
    nbJoined (nbRun [1, 2, 3, 4, 5] (nbInit 2 [1, 2, 3, 4, 5])
      [(0, true), (1, true), (1, true), (0, true), (1, false), (0, true), (1, true), (1, true),
       (1, true), (0, true), (0, true), (1, true), (1, true), (1, true), (1, true), (1, true),
       (0, true), (0, true), (0, true), (1, true), (1, true), (1, true), (1, true), (1, true),
       (1, true), (0, true), (0, true), (1, true), (1, true)]) = true ∧
    nbSumCasCount [1, 2, 3, 4, 5] (nbInit 2 [1, 2, 3, 4, 5])
      [(0, true), (1, true), (1, true), (0, true), (1, false), (0, true), (1, true), (1, true),
       (1, true), (0, true), (0, true), (1, true), (1, true), (1, true), (1, true), (1, true),
       (0, true), (0, true), (0, true), (1, true), (1, true), (1, true), (1, true), (1, true),
       (1, true), (0, true), (0, true), (1, true), (1, true)] = (odds [1, 2, 3, 4, 5]).length ∧
    (odds [1, 2, 3, 4, 5]).length = 3 :=
  ⟨by decide,
    ((lockfree_sum_no_lost_update 2 [1, 2, 3, 4, 5] _).2.2.2.2.1
      (by decide) (by decide) (by decide)).2.1,
    by decide⟩

/-- C7 fails for the array of `2^31` elements (zeros followed by a single `1`):
after all workers of `getNonBlocking` have returned the shared sum is `0`, while
the sequential sum is `-1`; the last element is never visited. -/
theorem lockfree_sum_big :
    (1 : Int) ∈ odds bigArray ∧
    getNonBlocking bigArray (nbSerial 4 (5 * bigArray.length + 5)) = some (0, INT_MAX) ∧
    (getSequential bigArray).1 = -1 := by
  refine ⟨?_, getNonBlocking_bigArray, by rw [getSequential_bigArray]⟩
  rw [mem_odds]
  refine ⟨?_, by decide⟩
  unfold bigArray
  exact List.mem_append_right _ (List.mem_singleton.2 rfl)

/-- C8. For every array `A` and every permutation `A'` of `A`, folding the
update `sum -= v; min = min(min, v)` (wrapping subtraction) over the odd elements
of `A'` yields the pair `getSequential A`. -/
theorem reduction_order_independent (A A' : List Int) (h : A'.Perm A) :
    (A'.filter (fun v => Int.tmod v 2 != 0)).foldl
        (fun acc v => (wrapInt (acc.1 - v), min acc.2 v)) (0, INT_MAX) =
      getSequential A := by
  have h1 : (A'.filter (fun v => Int.tmod v 2 != 0)).foldl
      (fun acc v => (wrapInt (acc.1 - v), min acc.2 v)) (0, INT_MAX) =
      (odds A').foldl applyOdd (0, INT_MAX) := rfl
  rw [h1, getSequential_eq]
  have hp : (odds A').Perm (odds A) := h.filter _
  haveI : RightCommutative applyOdd := ⟨applyOdd_rightComm⟩
  exact hp.foldl_eq _

/-- C8 at `A = [1, 2, 3, 4, 5]` and `A' = [5, 4, 3, 2, 1]`. -/
theorem reduction_order_independent_witness :
    ([5, 4, 3, 2, 1] : List Int).Perm [1, 2, 3, 4, 5] ∧
    (([5, 4, 3, 2, 1] : List Int).filter (fun v => Int.tmod v 2 != 0)).foldl
        (fun acc v => (wrapInt (acc.1 - v), min acc.2 v)) (0, INT_MAX) =
      getSequential [1, 2, 3, 4, 5] :=
  ⟨by decide, reduction_order_independent [1, 2, 3, 4, 5] [5, 4, 3, 2, 1] (by decide)⟩

/-- C9. In every reachable state of `getNonBlocking`, for a worker `t` in the
minimum loop for its odd element `v`: at the load, the iteration ends the loop
without a compare-and-swap exactly when `min(current, v)` equals the freshly
loaded `current` (that is, `current <= v`), and otherwise goes on to a
compare-and-swap from `current` to the candidate `v`; the compare-and-swap either
succeeds, storing `v` and ending the loop, or fails and leads back to a fresh load;
no action of the worker increases the shared minimum; when the loop is left the
shared minimum is at most `v`; and the shared minimum is at most every odd
element the worker has already passed. -/
theorem lockfree_min_loop (W : Nat) (A : List Int) (sched : List (Nat × Bool)) (t : Nat)
    (ok : Bool) (w : NBWorker)
    (hw : (nbRun A (nbInit W A) sched).workers[t]? = some w) :
    (w.pc = .minLoad →
      (min (nbRun A (nbInit W A) sched).minOdd w.val = (nbRun A (nbInit W A) sched).minOdd ↔
        (nbRun A (nbInit W A) sched).minOdd ≤ w.val) ∧
      nbWorkerStep A ok (nbRun A (nbInit W A) sched).diffOdd
          (nbRun A (nbInit W A) sched).minOdd w =
        if min (nbRun A (nbInit W A) sched).minOdd w.val = (nbRun A (nbInit W A) sched).minOdd
        then
          ((nbRun A (nbInit W A) sched).diffOdd, (nbRun A (nbInit W A) sched).minOdd,
            { w with oldVal := (nbRun A (nbInit W A) sched).minOdd,
                     newVal := (nbRun A (nbInit W A) sched).minOdd,
                     i := w.i + 1, pc := .loopHead })
        else
          ((nbRun A (nbInit W A) sched).diffOdd, (nbRun A (nbInit W A) sched).minOdd,
            { w with oldVal := (nbRun A (nbInit W A) sched).minOdd,
                     newVal := w.val, pc := .minCas })) ∧
    (w.pc = .minCas →
      w.val < w.oldVal ∧ w.newVal = w.val ∧
      nbWorkerStep A ok (nbRun A (nbInit W A) sched).diffOdd
          (nbRun A (nbInit W A) sched).minOdd w =
        if (ok && (nbRun A (nbInit W A) sched).minOdd == w.oldVal) = true then
          ((nbRun A (nbInit W A) sched).diffOdd, w.val,
            { w with i := w.i + 1, pc := .loopHead })
        else
          ((nbRun A (nbInit W A) sched).diffOdd, (nbRun A (nbInit W A) sched).minOdd,
            { w with oldVal := (nbRun A (nbInit W A) sched).minOdd, pc := .minLoad })) ∧
    (nbStep A (nbRun A (nbInit W A) sched) (t, ok)).minOdd ≤
      (nbRun A (nbInit W A) sched).minOdd ∧
    ((w.pc = .minLoad ∨ w.pc = .minCas) →
      (nbWorkerStep A ok (nbRun A (nbInit W A) sched).diffOdd
        (nbRun A (nbInit W A) sched).minOdd w).2.2.pc = .loopHead →
      (nbStep A (nbRun A (nbInit W A) sched) (t, ok)).minOdd ≤ w.val) ∧
    (∀ v ∈ odds (seg A w.start w.i), (nbRun A (nbInit W A) sched).minOdd ≤ v) := by
  have hinv := NBInv.nb_reach W A sched
  have hl := nb_reach_local W A sched t w hw
  refine ⟨?_, ?_, nbStep_minOdd_le hinv _, ?_, ?_⟩
  · intro hpc
    exact ⟨min_eq_left_iff, nbWorkerStep_minLoad A ok _ _ w hpc⟩
  · intro hpc
    obtain ⟨h1, h2⟩ := hl.2 hpc
    exact ⟨h1, by rw [h2, min_eq_right (le_of_lt h1)], nbWorkerStep_minCas A ok _ _ w hl hpc⟩
  · intro hpc hexit
    exact nbStep_minOdd_le_val hinv t ok w hw hpc hexit
  · exact nb_reach_lb W A sched w (mem_of_getElem?_eq_some hw)

/-- C9 at `A = [7, 3]` with one worker: after the element `7` has been merged
(shared minimum `7`), the worker reaches the minimum loop for `v = 3`, attempts
a compare-and-swap, and leaves the loop with shared minimum `3 <= v`. -/
theorem lockfree_min_loop_witness :
    (nbRun [7, 3] (nbInit 1 [7, 3])
        [(0, true), (0, true), (0, true), (0, true), (0, true), (0, true), (0, true),
         (0, true), (0, true)]).workers[0]? = some ⟨0, 2, 1, 3, 7, 3, .minCas⟩ ∧
    (nbRun [7, 3] (nbInit 1 [7, 3])
        [(0, true), (0, true), (0, true), (0, true), (0, true), (0, true), (0, true),
         (0, true), (0, true)]).minOdd = 7 ∧
    (nbStep [7, 3] (nbRun [7, 3] (nbInit 1 [7, 3])
        [(0, true), (0, true), (0, true), (0, true), (0, true), (0, true), (0, true),
         (0, true), (0, true)]) (0, true)).minOdd ≤ 3 :=
  ⟨by decide, by decide,
    (lockfree_min_loop 1 [7, 3]
      [(0, true), (0, true), (0, true), (0, true), (0, true), (0, true), (0, true),
       (0, true), (0, true)] 0 true ⟨0, 2, 1, 3, 7, 3, .minCas⟩ (by decide)).2.2.2.1
      (Or.inr rfl) (by decide)⟩

/-- C10. For every array of length `N <= 214748` with all elements in
`[-10000, 10000]` and every worker count `W >= 1`: applying the updates for any
sub-collection of the odd elements in any order gives the exact negated sum,
which is an `int`; every running sum of `getSequential` is exact; in every
reachable state of `getNonBlocking` and of `getBlocking` the shared sum is the
exact negated sum of the completed elements, an `int`, and every subtraction a
worker computes on it is exact; the returned sums equal the exact negated odd
sum.  The bound `N * 10000 <= INT_MAX` holds for `N = 214748`, hence for the
driver sizes `1000`, `10000` and `100000`, and fails for `1000000`. -/
theorem sum_never_wraps (W : Nat) (A : List Int) (hW : 1 ≤ W)
    (hN : (A.length : Int) ≤ 214748) (hB : ∀ v ∈ A, -10000 ≤ v ∧ v ≤ 10000) :
    (∀ P : List Int, P.Subperm (odds A) →
      (P.foldl applyOdd (0, INT_MAX)).1 = -P.sum ∧ IsInt (-P.sum)) ∧
    (∀ k, (getSequential (A.take k)).1 = -(oddSum (A.take k)) ∧
      IsInt (-(oddSum (A.take k)))) ∧
    (∀ sched,
      (nbRun A (nbInit W A) sched).diffOdd =
        -((nbRun A (nbInit W A) sched).workers.map (nbSumCompleted A)).flatten.sum ∧
      IsInt (nbRun A (nbInit W A) sched).diffOdd ∧
      (∀ w ∈ (nbRun A (nbInit W A) sched).workers, w.pc = .sumLoad →
        IsInt ((nbRun A (nbInit W A) sched).diffOdd - w.val)) ∧
      (∀ w ∈ (nbRun A (nbInit W A) sched).workers, w.pc = .sumCas →
        IsInt (w.oldVal - w.val) ∧ w.newVal = w.oldVal - w.val)) ∧
    (∀ sched,
      (bRun A (bInit W A) sched).diffOdd =
        -((bRun A (bInit W A) sched).workers.map (bSumCompleted A)).flatten.sum ∧
      IsInt (bRun A (bInit W A) sched).diffOdd ∧
      (∀ w ∈ (bRun A (bInit W A) sched).workers, w.pc = .sumWrite →
        w.tmp = (bRun A (bInit W A) sched).diffOdd ∧ IsInt (w.tmp - w.val))) ∧
    (getSequential A).1 = -(oddSum A) ∧
    (∀ sched r, getBlockingW W A sched = some r → r.1 = -(oddSum A)) ∧
    (∀ sched r, getNonBlockingW W A sched = some r → r.1 = -(oddSum A)) ∧
    ((214748 : Int) * 10000 ≤ INT_MAX ∧ (1000 : Int) * 10000 ≤ INT_MAX ∧
      (10000 : Int) * 10000 ≤ INT_MAX ∧ (100000 : Int) * 10000 ≤ INT_MAX ∧
      ¬ ((1000000 : Int) * 10000 ≤ INT_MAX)) := by
  have hs : (A.length : Int) ≤ INT_MAX := by unfold INT_MAX; omega
  have hseq := getSequential_fst_exact hN hB
  refine ⟨?_, ?_, ?_, ?_, hseq, ?_, ?_, by decide⟩
  · intro P hP
    exact foldl_applyOdd_exact hN hB hP
  · intro k
    exact getSequential_take_exact hN hB k
  · intro sched
    exact nb_exact_reach hW hN hB sched
  · intro sched
    exact b_exact_reach hW hN hB sched
  · intro sched r h
    rw [getBlockingW_sound hW hs h, hseq]
  · intro sched r h
    rw [getNonBlockingW_sound hW hs h, hseq]

/-- C10 at `A = [9999, -9999, 4, 9999, 10000]` with four workers: the returned
sum is `-9999`, the exact negated odd sum. -/
theorem sum_never_wraps_witness :
    1 ≤ 4 ∧ ((([9999, -9999, 4, 9999, 10000] : List Int).length : Int) ≤ 214748) ∧
    (∀ v ∈ ([9999, -9999, 4, 9999, 10000] : List Int), -10000 ≤ v ∧ v ≤ 10000) ∧
    (getSequential [9999, -9999, 4, 9999, 10000]).1 = -(oddSum [9999, -9999, 4, 9999, 10000]) ∧
    oddSum [9999, -9999, 4, 9999, 10000] = 9999 ∧
    (∀ sched r, getNonBlockingW 4 [9999, -9999, 4, 9999, 10000] sched = some r →
      r.1 = -(oddSum [9999, -9999, 4, 9999, 10000])) :=
  ⟨by decide, by decide, by decide,
    (sum_never_wraps 4 [9999, -9999, 4, 9999, 10000] (by decide) (by decide) (by decide)).2.2.2.2.1,
    by decide,
    (sum_never_wraps 4 [9999, -9999, 4, 9999, 10000] (by decide) (by decide)
      (by decide)).2.2.2.2.2.2.1⟩

end Lab23
